import Mathlib

/-!
Verification of the request-coalescing layer in
`google/cloud/ndb/_datastore_api.py`.

The Python module batches lookups and mutations, deduplicates keys,
demultiplexes responses onto per-caller futures, and coordinates the
transactional commit state machine with asynchronous id allocation.
This file gives a shallow embedding of that module: protobuf keys,
entities and mutations become inductive data, Python dictionaries become
association lists, futures become single cells in an indexed store, and
the event-loop interleavings relevant to the claims become explicit step
functions on world states.
-/

namespace NdbDatastoreApi

/-! ## Basic data model: keys, entities, mutations -/

/-- Serialized byte strings (transaction ids, serialized protos). -/
abbrev Bytes := List Nat

/-- One element of a key path (`entity_pb2.Key.PathElement`): proto3
scalar fields default to `0` / empty string, so absence is represented by
those defaults exactly as the Python truthiness tests see them. -/
structure PathElement where
  id : Nat
  name : List Nat
  deriving DecidableEq, Repr

/-- A Datastore key protocol buffer: a path of elements. -/
structure Key where
  path : List PathElement
  deriving DecidableEq, Repr

/-- Canonical serialized form of a key (`key.to_protobuf().SerializeToString()`).
Protobuf serialization of a key message is deterministic and injective;
we model the canonical form as the list of `(id, name)` pairs. -/
abbrev SerializedKey := List (Nat × List Nat)

/-- `key.to_protobuf().SerializeToString()`. -/
def Key.serialize (k : Key) : SerializedKey :=
  k.path.map (fun e => (e.id, e.name))

/-- `key_pb.ParseFromString(todo_key)`: recover a key from its canonical
serialized form. -/
def parseKey (s : SerializedKey) : Key :=
  ⟨s.map (fun p => ⟨p.1, p.2⟩)⟩

/-- An entity protocol buffer: a key plus opaque properties. -/
structure Entity where
  key : Key
  props : Nat
  deriving DecidableEq, Repr

/-- `datastore_pb2.Mutation`: either `upsert=entity_pb` or `delete=key_pb`. -/
inductive Mutation where
  | upsert (e : Entity)
  | delete (k : Key)
  deriving DecidableEq, Repr

/-- `mutation.upsert.key` (the field read by `idle_callback`; a `delete`
mutation's proto3 `upsert` submessage reads as default, i.e. empty key). -/
def Mutation.upsertKey : Mutation → Key
  | .upsert e => e.key
  | .delete _ => ⟨[]⟩

/-- `mutation.upsert.key.CopyFrom(key)`: overwrite the upsert entity's key
in place. -/
def Mutation.withAllocatedKey : Mutation → Key → Mutation
  | .upsert e, k => .upsert { e with key := k }
  | .delete d, _ => .delete d

/-- `_complete(key_pb)` from the source: a key is treated as complete when
its path is non-empty and the last path element has a truthy `id` or a
truthy `name`. -/
def _complete (key_pb : Key) : Bool :=
  match key_pb.path.getLast? with
  | some element => element.id ≠ 0 || element.name ≠ []
  | none => false

/-! ## Dynamic option values and option dictionaries -/

/-- A dynamically-typed Python value that can appear in the `options`
dictionary or as `context.transaction`: `None`, a bytes transaction id,
the `EVENTUAL` read-consistency enum, the `STRONG` enum, or some other
opaque value. -/
inductive OptVal where
  | noneV
  | txnV (t : Bytes)
  | eventualV
  | strongV
  | otherV (n : Nat)
  deriving DecidableEq, Repr

/-- Python truthiness of an option value (`if transaction:`): `None` and
empty bytes are falsy; the enum values `STRONG = 1`, `EVENTUAL = 2` and
nonzero opaque values are truthy. -/
def OptVal.truthy : OptVal → Bool
  | .noneV => false
  | .txnV t => t ≠ []
  | .eventualV => true
  | .strongV => true
  | .otherV n => n ≠ 0

/-- Option dictionary keys, abstracted to numeric codes (the claims never
depend on the key strings themselves, only on their identity). -/
abbrev OptKey := Nat

def kTransaction : OptKey := 0
def kReadConsistency : OptKey := 1
def kReadPolicy : OptKey := 2

/-- `_OPTIONS_SUPPORTED = {"transaction", "read_consistency", "read_policy"}`. -/
def _OPTIONS_SUPPORTED : List OptKey := [kTransaction, kReadConsistency, kReadPolicy]

/-- `_OPTIONS_NOT_IMPLEMENTED`: the ten legacy NDB option keys
(deadline, force_writes, use_cache, use_memcache, use_datastore,
memcache_timeout, max_memcache_items, xg, propagation, retries),
given codes 3 through 12. -/
def _OPTIONS_NOT_IMPLEMENTED : List OptKey := [3, 4, 5, 6, 7, 8, 9, 10, 11, 12]

/-- An options dictionary: an association list with unique keys, in
insertion order (Python dicts preserve insertion order). -/
abbrev Options := List (OptKey × OptVal)

/-- `options.get(k)`: `none` when the key is absent. -/
def optGet (opts : Options) (k : OptKey) : Option OptVal :=
  (opts.find? (fun p => p.1 = k)).map (·.2)

/-- `options.get(k)` where an absent key yields Python `None`. -/
def optGetD (opts : Options) (k : OptKey) : OptVal :=
  (optGet opts k).getD .noneV

/-- Insert an entry into a key-sorted list, keeping it sorted by key. -/
def insertSortedByKey (p : OptKey × OptVal) : Options → Options
  | [] => [p]
  | q :: rest =>
    if p.1 ≤ q.1 then p :: q :: rest else q :: insertSortedByKey p rest

/-- `tuple(sorted(options.items()))`: the canonical option key used to
index the batch registry. Options dictionaries have unique keys, so
sorting by key alone determines the tuple. -/
def sortOptions (opts : Options) : Options :=
  opts.foldr insertSortedByKey []

/-- Synchronously raised Python exceptions. -/
inductive PyError where
  | valueError (msg : String)
  | notImplementedError (msg : String)
  deriving DecidableEq, Repr

/-- `_check_unsupported_options(options)`: raise `NotImplementedError` for
the first key that is a known-but-unimplemented legacy option or is not a
supported option at all. -/
def _check_unsupported_options : Options → Except PyError Unit
  | [] => .ok ()
  | (k, _) :: rest =>
    if k ∈ _OPTIONS_NOT_IMPLEMENTED then
      .error (.notImplementedError "Support for option has not yet been implemented")
    else if k ∉ _OPTIONS_SUPPORTED then
      .error (.notImplementedError "Passed bad option")
    else
      _check_unsupported_options rest

/-- `_get_transaction(options)`: `options.get("transaction",
context.transaction)` — the value stored under the key, defaulting to the
context's transaction when the key is absent. -/
def _get_transaction (opts : Options) (ctxTransaction : OptVal) : OptVal :=
  match optGet opts kTransaction with
  | some v => v
  | none => ctxTransaction

/-- `datastore_pb2.ReadOptions(read_consistency=..., transaction=...)`. -/
structure ReadOptions where
  read_consistency : OptVal
  transaction : OptVal
  deriving DecidableEq, Repr

/-- `_get_read_options(options)` from the source: resolve the effective
transaction and read consistency (falling back from `read_consistency` to
legacy `read_policy`), and raise `ValueError` when a transaction is
present together with `EVENTUAL` consistency. -/
def _get_read_options (opts : Options) (ctxTransaction : OptVal) :
    Except PyError ReadOptions :=
  let transaction := _get_transaction opts ctxTransaction
  let rc0 := optGetD opts kReadConsistency
  let read_consistency := if rc0 = .noneV then optGetD opts kReadPolicy else rc0
  if transaction ≠ .noneV ∧ read_consistency = .eventualV then
    .error (.valueError "read_consistency must be EVENTUAL when in transaction")
  else
    .ok ⟨read_consistency, transaction⟩

/-! ## Futures

Futures are modelled as cells in an indexed store: a future id is an
index into a list of cells, a cell is `none` while the future is pending
and `some outcome` once resolved. `future.done()` is `isSome`. -/

/-- A resolved future's payload. -/
inductive Value where
  | vNone
  | vEntity (e : Entity)
  | vNotFound
  | vKey (k : Key)
  deriving DecidableEq, Repr

/-- Opaque RPC-level exception objects. -/
abbrev Err := Nat

/-- What a future is resolved with: `set_result` or `set_exception`. -/
inductive Outcome where
  | result (v : Value)
  | exception (e : Err)
  deriving DecidableEq, Repr

/-- The store of future cells, indexed by future id. -/
abbrev FutureCells := List (Option Outcome)

/-- Resolve the future at index `i` (no-op past the end of the store). -/
def setFut (cells : FutureCells) (i : Nat) (o : Outcome) : FutureCells :=
  cells.set i (some o)

/-- `future.done()` for the future at index `i`. -/
def futDone (cells : FutureCells) (i : Nat) : Bool :=
  (cells.getD i none).isSome

/-- The current cell of future `i`. -/
def futGet (cells : FutureCells) (i : Nat) : Option Outcome :=
  cells.getD i none

/-! ## Lookup batches

`_LookupBatch.todo` is a Python dict mapping serialized key protos to
lists of futures; dicts preserve insertion order, so it is modelled as an
association list with unique keys. Future objects are modelled by their
numeric ids; resolving futures is modelled by the list of
`(future, outcome)` assignments a callback performs. -/

/-- The `todo` dict of a lookup batch. -/
abbrev Todo := List (SerializedKey × List Nat)

/-- `self.todo.setdefault(todo_key, []).append(future)`. -/
def todoAppend (todo : Todo) (sk : SerializedKey) (fid : Nat) : Todo :=
  match todo with
  | [] => [(sk, [fid])]
  | (sk', fs) :: rest =>
    if sk' = sk then (sk', fs ++ [fid]) :: rest
    else (sk', fs) :: todoAppend rest sk fid

/-- `next_batch.todo.setdefault(todo_key, []).extend(futures)`. -/
def todoExtend (todo : Todo) (sk : SerializedKey) (fids : List Nat) : Todo :=
  match todo with
  | [] => [(sk, fids)]
  | (sk', fs) :: rest =>
    if sk' = sk then (sk', fs ++ fids) :: rest
    else (sk', fs) :: todoExtend rest sk fids

/-- `self.todo[todo_key]`: the future list for a serialized key (the code
only indexes keys present in the batch; an absent key yields `[]` here). -/
def todoSlot (todo : Todo) (sk : SerializedKey) : List Nat :=
  ((todo.find? (fun p => p.1 = sk)).map (·.2)).getD []

/-- `_LookupBatch`: the request options and the keyed future lists. -/
structure LookupBatch where
  options : Options
  todo : Todo
  deriving DecidableEq, Repr

/-- The keys of `idle_callback`'s Lookup request: each `todo` dict key,
parsed back from its serialized form, in dict order. -/
def lookupRequestKeys (b : LookupBatch) : List Key :=
  b.todo.map (fun p => parseKey p.1)

/-- `datastore_pb2.EntityResult`. -/
structure EntityResult where
  entity : Entity
  deriving DecidableEq, Repr

/-- `datastore_pb2.LookupResponse`: the found / missing / deferred
partition of the requested keys. -/
structure LookupResponse where
  found : List EntityResult
  missing : List EntityResult
  deferred : List Key
  deriving DecidableEq, Repr

/-- The future resolutions performed by `_LookupBatch.lookup_callback`:
on an RPC exception, every future of every key in the batch receives that
exception (`itertools.chain(*self.todo.values())`); otherwise the missing
loop resolves each missing key's futures with the `_NOT_FOUND` sentinel
and the found loop resolves each found entity's futures with that entity.
Deferred keys resolve nothing. -/
def lookupAssignments (todo : Todo) (rpc : Except Err LookupResponse) :
    List (Nat × Outcome) :=
  match rpc with
  | .error e => (todo.map (·.2)).flatten.map (fun f => (f, Outcome.exception e))
  | .ok results =>
    (results.missing.map (fun r =>
      (todoSlot todo r.entity.key.serialize).map
        (fun f => (f, Outcome.result .vNotFound)))).flatten
    ++ (results.found.map (fun r =>
      (todoSlot todo r.entity.key.serialize).map
        (fun f => (f, Outcome.result (.vEntity r.entity))))).flatten

/-! ## The option-keyed batch registry, specialized to lookup batches -/

/-- The session state touched by `lookup`: the open lookup batches keyed
by canonical option key (`context.batches[_LookupBatch]`), the pending
idle flush callbacks, the future-id counter, and the Lookup RPCs issued
so far (each a key list plus read options). -/
structure LookupWorld where
  batches : List (Options × LookupBatch)
  scheduled : List Options
  nextFid : Nat
  rpcs : List (List Key × ReadOptions)
  deriving DecidableEq, Repr

/-- `batches.get(options_key)`. -/
def findBatch (batches : List (Options × LookupBatch)) (okey : Options) :
    Option LookupBatch :=
  (batches.find? (fun p => p.1 = okey)).map (·.2)

/-- In-place mutation of the batch object stored under `okey` (Python
aliasing: the dict holds a reference to the batch being mutated). -/
def setBatch (batches : List (Options × LookupBatch)) (okey : Options)
    (b : LookupBatch) : List (Options × LookupBatch) :=
  match batches with
  | [] => [(okey, b)]
  | (k, b0) :: rest =>
    if k = okey then (okey, b) :: rest else (k, b0) :: setBatch rest okey b

/-- `_get_batch(_LookupBatch, options)`: look up the open batch for the
sorted option key; if absent, construct one (storing the original
options) and register exactly one idle flush callback for this key.
Returns the world, the option key, and the batch. -/
def _get_batch_lookup (w : LookupWorld) (opts : Options) :
    LookupWorld × Options × LookupBatch :=
  let okey := sortOptions opts
  match findBatch w.batches okey with
  | some b => (w, okey, b)
  | none =>
    ({ w with
        batches := w.batches ++ [(okey, ⟨opts, []⟩)],
        scheduled := w.scheduled ++ [okey] },
      okey, ⟨opts, []⟩)

/-- `lookup(key, **options)`: check the options for unsupported keys
(raising `NotImplementedError`), then acquire the batch and add the key:
a fresh future is appended to the serialized key's slot. Returns the new
world and the future's id. No read-option validation happens here. -/
def lookup (w : LookupWorld) (key : Key) (opts : Options) :
    Except PyError (LookupWorld × Nat) :=
  match _check_unsupported_options opts with
  | .error e => .error e
  | .ok _ =>
    let (w1, okey, b) := _get_batch_lookup w opts
    let fid := w1.nextFid
    let b' : LookupBatch := ⟨b.options, todoAppend b.todo key.serialize fid⟩
    .ok ({ w1 with batches := setBatch w1.batches okey b', nextFid := fid + 1 }, fid)

/-- The idle callback registered by `_get_batch`: pop the batch from the
registry first, then run `idle_callback`, which computes the read options
(`_get_read_options` may raise `ValueError`, which then propagates out of
the callback with no RPC issued) and issues exactly one Lookup RPC over
the batch's keys. -/
def runLookupIdle (w : LookupWorld) (okey : Options) (ctxTransaction : OptVal) :
    LookupWorld × Option PyError :=
  match findBatch w.batches okey with
  | none => (w, none)
  | some b =>
    let w1 : LookupWorld :=
      { w with
          batches := w.batches.filter (fun p => p.1 ≠ okey),
          scheduled := w.scheduled.erase okey }
    match _get_read_options b.options ctxTransaction with
    | .error e => (w1, some e)
    | .ok ro => ({ w1 with rpcs := w1.rpcs ++ [(lookupRequestKeys b, ro)] }, none)

/-- The registry side of `lookup_callback`: when the response reports
deferred keys, re-acquire a batch for the same options via `_get_batch`
(which may create one and schedule its flush, or reuse an open one) and
extend each deferred key's slot with the original futures from the
flushed batch. No RPC is issued. The future resolutions of the callback
are `lookupAssignments`. -/
def lookupCallbackWorld (w : LookupWorld) (b : LookupBatch)
    (rpc : Except Err LookupResponse) : LookupWorld :=
  match rpc with
  | .error _ => w
  | .ok results =>
    if results.deferred.isEmpty then w
    else
      let (w1, okey, nb) := _get_batch_lookup w b.options
      let todo' := results.deferred.foldl
        (fun td k => todoExtend td k.serialize (todoSlot b.todo k.serialize)) nb.todo
      { w1 with batches := setBatch w1.batches okey ⟨nb.options, todo'⟩ }

/-- The todo dict of the batch currently open under `okey`, or the empty
dict when no batch is open. -/
def currentTodo (w : LookupWorld) (okey : Options) : Todo :=
  match findBatch w.batches okey with
  | some b => b.todo
  | none => []

/-- Sequential `lookup` calls for a list of keys with shared options,
all within one scheduling pass (no idle callback runs in between). -/
def lookupAll (w : LookupWorld) (opts : Options) : List Key → LookupWorld
  | [] => w
  | k :: ks =>
    match lookup w k opts with
    | .ok (w', _) => lookupAll w' opts ks
    | .error _ => w

/-- The todo dict built by adding `ks` with consecutive future ids
starting at `fid`, extending `td`. -/
def mkTodoAux (td : Todo) : List Key → Nat → Todo
  | [], _ => td
  | k :: ks, fid => mkTodoAux (todoAppend td k.serialize fid) ks (fid + 1)

/-- The todo dict of a fresh batch after adding `ks` with consecutive
future ids starting at `fid0`. -/
def mkTodo (ks : List Key) (fid0 : Nat) : Todo :=
  mkTodoAux [] ks fid0

/-- The future ids handed out for exactly the calls in `ks` whose key
serializes to `sk`, in call order, when ids are consecutive from `fid`. -/
def slotFids : List Key → Nat → SerializedKey → List Nat
  | [], _, _ => []
  | k :: ks, fid, sk =>
    (if k.serialize = sk then [fid] else []) ++ slotFids ks (fid + 1) sk

/-- Pairwise-disjoint slots: no future waits under two different keys. -/
def TodoDisjoint (todo : Todo) : Prop :=
  ∀ f sk1 sk2, f ∈ todoSlot todo sk1 → f ∈ todoSlot todo sk2 → sk1 = sk2

/-! ## Commit response processing (`_process_commit`) -/

/-- `datastore_pb2.MutationResult`: carries the key allocated for the
mutation; when no key was allocated the backend sends a key with an
empty path. -/
structure MutationResult where
  key : Key
  deriving DecidableEq, Repr

/-- `datastore_pb2.CommitResponse`. -/
structure CommitResponse where
  mutation_results : List MutationResult
  deriving DecidableEq, Repr

/-- The value a commit future is resolved with for one mutation result:
the returned key when its path is non-empty, else Python `None`. -/
def mutationResultValue (r : MutationResult) : Value :=
  if r.key.path ≠ [] then .vKey r.key else .vNone

/-- The success loop of `_process_commit`: walk
`zip(response.mutation_results, futures)` positionally; skip futures that
are already done, resolve the rest with the mutation result's key (or
`None` for an empty path). `zip` truncates at the shorter list, leaving
the remaining futures untouched. -/
def applyMutationResults : List MutationResult → List (Option Outcome) → List (Option Outcome)
  | _, [] => []
  | [], cells => cells
  | r :: rs, c :: cs =>
    (match c with
     | some v => some v
     | none => some (.result (mutationResultValue r))) :: applyMutationResults rs cs

/-- `_process_commit(rpc, futures)`: on an RPC exception, propagate it to
every future that is not already done; on success, demultiplex the
mutation results positionally onto the futures, skipping futures that are
already done. The `futures` argument is the batch's future list in
submission order; position `i` is the i-th submitted future. -/
def _process_commit (rpc : Except Err CommitResponse)
    (futures : List (Option Outcome)) : List (Option Outcome) :=
  match rpc with
  | .error exc =>
    futures.map (fun c =>
      match c with
      | none => some (.exception exc)
      | some v => some v)
  | .ok response => applyMutationResults response.mutation_results futures

/-! ## `put` / `delete` routing and the per-transaction batch registry -/

/-- Which batch a `put`/`delete` call is routed to: the transactional
commit batch for the (truthy) effective transaction, or a single-pass
non-transactional commit batch. -/
inductive PutRoute where
  | txnBatch (transaction : OptVal)
  | nonTxnBatch
  deriving DecidableEq, Repr

/-- The route selection made by `put()` and `delete()`:
`transaction = _get_transaction(options); if transaction:` routes to
`_get_commit_batch(transaction, options)`, otherwise to
`_get_batch(_NonTransactionalCommitBatch, options)`. -/
def putRoute (opts : Options) (ctxTransaction : OptVal) : PutRoute :=
  let transaction := _get_transaction opts ctxTransaction
  if transaction.truthy then .txnBatch transaction else .nonTxnBatch

/-- `context.commit_batches`: one commit batch per transaction id,
persisted for the transaction's lifetime. Batches are identified by
numeric ids drawn from a counter. -/
abbrev CommitBatches := List (OptVal × Nat)

/-- `_get_commit_batch(transaction, options)`: copy the options, pop
`"transaction"`, and raise `NotImplementedError` if any other key
remains — all before touching the registry. Then return the existing
batch for this transaction, or create and register a new one. Returns
the registry afterwards, the batch-id counter afterwards, and the batch
id (or the raised error). -/
def _get_commit_batch (transaction : OptVal) (opts : Options)
    (commit_batches : CommitBatches) (nextBatch : Nat) :
    CommitBatches × Nat × Except PyError Nat :=
  let rest := opts.filter (fun p => p.1 ≠ kTransaction)
  if rest.isEmpty then
    match (commit_batches.find? (fun p => p.1 = transaction)).map (·.2) with
    | some batch => (commit_batches, nextBatch, .ok batch)
    | none => (commit_batches ++ [(transaction, nextBatch)], nextBatch + 1, .ok nextBatch)
  else
    (commit_batches, nextBatch, .error (.notImplementedError "Passed bad option"))

/-! ## The transactional commit batch and its event-loop world -/

/-- One in-flight AllocateIds round: the snapshot of incomplete mutation
references and future ids taken by `idle_callback`, the marker future it
appended to `allocating_ids`, and the keys sent in the RPC. The callback
closure holding this data fires when the RPC completes. -/
structure AllocRound where
  muts : List Nat
  futs : List Nat
  marker : Nat
  keys : List Key
  deriving DecidableEq, Repr

/-- `_TransactionalCommitBatch` state. Mutation objects live in a shared
store (`TxnWorld.mutStore`) and are referenced by index, so the in-place
key update of `allocate_ids_callback` is visible through `mutations` and
the allocation snapshots alike, as with Python object references. -/
structure TxnBatch where
  transaction : OptVal
  mutations : List Nat
  futures : List Nat
  allocatingIds : List Nat
  incompleteMutations : List Nat
  incompleteFutures : List Nat
  deriving DecidableEq, Repr

/-- The RPCs issued by a transactional commit batch. -/
inductive TxnRpc where
  | allocateIds (keys : List Key)
  | commit (transaction : OptVal) (mutations : List Mutation)
  deriving DecidableEq, Repr

/-- Progress of the `commit` tasklet: not yet invoked; suspended at
`yield future` awaiting `allocating_ids[i]`; returned trivially because
there were no mutations; or past the await loop with the Commit RPC
issued. -/
inductive CommitPhase where
  | notStarted
  | awaiting (i : Nat)
  | trivialDone
  | sent
  deriving DecidableEq, Repr

/-- The world of one transaction's commit batch: future cells, the
mutation object store, the batch, the in-flight allocation rounds, the
RPCs issued so far, the number of allocation idle callbacks registered,
and the commit tasklet's phase. -/
structure TxnWorld where
  futures : FutureCells
  mutStore : List Mutation
  batch : TxnBatch
  pendingRounds : List AllocRound
  rpcs : List TxnRpc
  idleScheduled : Nat
  phase : CommitPhase
  deriving DecidableEq, Repr

/-- `future.done()` in a transactional world. -/
def TxnWorld.isDone (w : TxnWorld) (f : Nat) : Bool :=
  (w.futures.getD f none).isSome

/-- `_TransactionalCommitBatch.put(entity_pb)`: append a fresh future and
an upsert mutation to the batch; if the entity's key is incomplete,
append both to the pending-allocation lists — scheduling the allocation
idle callback exactly when this is the first pending entry — and if the
key is complete, resolve the future immediately with `None`. Returns the
new world and the future id. -/
def txnPut (w : TxnWorld) (entity_pb : Entity) : TxnWorld × Nat :=
  let fid := w.futures.length
  let mref := w.mutStore.length
  let base : TxnWorld :=
    { w with
        futures := w.futures ++ [none],
        mutStore := w.mutStore ++ [Mutation.upsert entity_pb],
        batch := { w.batch with
          futures := w.batch.futures ++ [fid],
          mutations := w.batch.mutations ++ [mref] } }
  if ¬ _complete entity_pb.key then
    ({ base with
        batch := { base.batch with
          incompleteMutations := w.batch.incompleteMutations ++ [mref],
          incompleteFutures := w.batch.incompleteFutures ++ [fid] },
        idleScheduled :=
          w.idleScheduled + (if w.batch.incompleteMutations.isEmpty then 1 else 0) },
      fid)
  else
    ({ base with futures := setFut base.futures fid (.result .vNone) }, fid)

/-- `_TransactionalCommitBatch.idle_callback`: return without any RPC if
there are no pending incomplete mutations (commit was called first);
otherwise append a marker future to `allocating_ids`, snapshot the
pending lists into an allocation round, issue one AllocateIds RPC over
the snapshot's upsert keys, and clear the pending lists. -/
def runAllocIdle (w : TxnWorld) : TxnWorld :=
  if w.batch.incompleteMutations.isEmpty then w
  else
    let marker := w.futures.length
    let muts := w.batch.incompleteMutations
    let futs := w.batch.incompleteFutures
    let keys := muts.map (fun r => (w.mutStore.getD r (Mutation.delete ⟨[]⟩)).upsertKey)
    { w with
        futures := w.futures ++ [none],
        batch := { w.batch with
          allocatingIds := w.batch.allocatingIds ++ [marker],
          incompleteMutations := [],
          incompleteFutures := [] },
        pendingRounds := w.pendingRounds ++ [⟨muts, futs, marker, keys⟩],
        rpcs := w.rpcs ++ [.allocateIds keys] }

/-- The success loop of `allocate_ids_callback`:
`for mutation, key, future in zip(mutations, response.keys, futures)`,
copy the allocated key into the mutation's entity in place and resolve
the future with the key (`zip` truncates at the shortest list). -/
def applyAllocSuccess : List Nat → List Key → List Nat → List Mutation → FutureCells →
    List Mutation × FutureCells
  | mref :: ms, key :: ks, fid :: fs, store, cells =>
    applyAllocSuccess ms ks fs
      (store.set mref ((store.getD mref (Mutation.delete ⟨[]⟩)).withAllocatedKey key))
      (setFut cells fid (.result (.vKey key)))
  | _, _, _, store, cells => (store, cells)

/-- Completion of one AllocateIds RPC (`callback` inside `idle_callback`):
run `allocate_ids_callback` on the round's snapshot — on an RPC exception
set it on every snapshot future; on success copy each allocated key into
its mutation in place and resolve each snapshot future with it — then
resolve the round's `allocating_ids` marker with `None`. The round is
addressed by its index among the in-flight rounds. -/
def fireAllocRound (w : TxnWorld) (i : Nat) (res : Except Err (List Key)) : TxnWorld :=
  match w.pendingRounds.get? i with
  | none => w
  | some rd =>
    let w1 := { w with pendingRounds := w.pendingRounds.eraseIdx i }
    match res with
    | .error e =>
      let cells := rd.futs.foldl (fun cs f => setFut cs f (.exception e)) w1.futures
      { w1 with futures := setFut cells rd.marker (.result .vNone) }
    | .ok keys =>
      let sf := applyAllocSuccess rd.muts keys rd.futs w1.mutStore w1.futures
      { w1 with mutStore := sf.1, futures := setFut sf.2 rd.marker (.result .vNone) }

/-- The relative index of the first not-yet-done marker in a suffix of
`allocating_ids`, scanning as `commit`'s `for` loop does. -/
def firstUndoneIdx (w : TxnWorld) : List Nat → Option Nat
  | [] => none
  | f :: rest =>
    if w.isDone f then (firstUndoneIdx w rest).map (· + 1) else some 0

/-- The mutations of the Commit request, dereferenced from the store in
original submission order. -/
def commitMutations (w : TxnWorld) : List Mutation :=
  w.batch.mutations.map (fun r => w.mutStore.getD r (Mutation.delete ⟨[]⟩))

/-- `commit`'s await loop from index `i` onwards: if some marker at or
after `i` is not done, suspend on the first such marker (`yield future`);
otherwise the loop is over — clear the pending-incomplete lists ("head
off making any more AllocateId calls") and issue exactly one Commit RPC
carrying the batch's transaction and all accumulated mutations in order. -/
def commitScan (w : TxnWorld) (i : Nat) : TxnWorld :=
  match firstUndoneIdx w (w.batch.allocatingIds.drop i) with
  | some r => { w with phase := .awaiting (i + r) }
  | none =>
    { w with
        batch := { w.batch with incompleteMutations := [], incompleteFutures := [] },
        rpcs := w.rpcs ++ [.commit w.batch.transaction (commitMutations w)],
        phase := .sent }

/-- Calling `commit()`: with no mutations it returns trivially; otherwise
the tasklet runs the await loop from the first marker, synchronously up
to its first suspension. -/
def commitStart (w : TxnWorld) : TxnWorld :=
  match w.phase with
  | .notStarted =>
    if w.batch.mutations.isEmpty then { w with phase := .trivialDone }
    else commitScan w 0
  | _ => w

/-- The suspended `commit` tasklet resumes when the marker it yielded on
resolves, and continues the loop at the next index. -/
def commitResume (w : TxnWorld) : TxnWorld :=
  match w.phase with
  | .awaiting i =>
    if w.isDone (w.batch.allocatingIds.getD i 0) then commitScan w (i + 1) else w
  | _ => w

/-! ## The generic option-keyed batch registry (`_get_batch`) -/

/-- The batch classes stored in `context.batches` (`batch_cls`). -/
inductive BatchKind where
  | lookupK
  | nonTxnCommitK
  deriving DecidableEq, Repr

/-- A registry key: operation kind plus canonical option key. -/
abbrev RegKey := BatchKind × Options

/-- The state of `context.batches` and its pending idle callbacks,
abstracted over batch contents: open batches are identified by creation
number; `flushing` records batches whose flush callback has begun. -/
structure RegState where
  batches : List (RegKey × Nat)
  scheduled : List RegKey
  flushing : List Nat
  nextId : Nat
  deriving DecidableEq, Repr

/-- `batches.get(options_key)` in the generic registry. -/
def regFind (l : List (RegKey × Nat)) (k : RegKey) : Option Nat :=
  (l.find? (fun p => p.1 = k)).map (·.2)

/-- `_get_batch(batch_cls, options)`: return the open batch for
`(kind, sorted option key)` when present; otherwise create one and
register exactly one idle flush callback for it. -/
def acquireBatch (s : RegState) (kind : BatchKind) (opts : Options) : RegState × Nat :=
  let k : RegKey := (kind, sortOptions opts)
  match regFind s.batches k with
  | some b => (s, b)
  | none =>
    ({ s with
        batches := s.batches ++ [(k, s.nextId)],
        scheduled := s.scheduled ++ [k],
        nextId := s.nextId + 1 }, s.nextId)

/-- The one-shot idle callback registered by `_get_batch`: pop the batch
from the open-batch map first, then begin its flush
(`batch.idle_callback()`), recording it as flushing. -/
def regRunIdle (s : RegState) (k : RegKey) : RegState :=
  match regFind s.batches k with
  | none => { s with scheduled := s.scheduled.erase k }
  | some b =>
    { s with
        batches := s.batches.filter (fun p => p.1 ≠ k),
        scheduled := s.scheduled.erase k,
        flushing := s.flushing ++ [b] }

/-- Registry states reachable from an empty session by acquisitions and
idle flushes. -/
inductive RegReach : RegState → Prop where
  | init : RegReach ⟨[], [], [], 0⟩
  | acquire (s : RegState) (kind : BatchKind) (opts : Options) :
      RegReach s → RegReach (acquireBatch s kind opts).1
  | runIdle (s : RegState) (k : RegKey) : RegReach s → RegReach (regRunIdle s k)

/-- The registry invariant maintained by all reachable states. -/
def RegInv (s : RegState) : Prop :=
  (s.batches.map (·.1)).Nodup
  ∧ (s.batches.map (·.2)).Nodup
  ∧ (∀ p ∈ s.batches, p.2 < s.nextId)
  ∧ (∀ b ∈ s.flushing, b < s.nextId)
  ∧ (∀ p ∈ s.batches, p.2 ∉ s.flushing)

/-! ## Helper lemmas -/

theorem parseKey_serialize (k : Key) : parseKey k.serialize = k := by
  cases k with
  | mk path =>
    simp only [Key.serialize, parseKey, List.map_map, Key.mk.injEq]
    induction path with
    | nil => rfl
    | cons e rest ih => simp only [List.map_cons, ih, Function.comp_apply]

theorem serialize_injective : Function.Injective Key.serialize := by
  intro k1 k2 h
  have := congrArg parseKey h
  rwa [parseKey_serialize, parseKey_serialize] at this

theorem futGet_setFut_self (cells : FutureCells) (i : Nat) (o : Outcome)
    (h : i < cells.length) : futGet (setFut cells i o) i = some o := by
  simp [futGet, setFut, List.getD_eq_getElem?_getD, List.getElem?_set_self h]

theorem futGet_setFut_other (cells : FutureCells) (i j : Nat) (o : Outcome)
    (h : j ≠ i) : futGet (setFut cells i o) j = futGet cells j := by
  simp [futGet, setFut, List.getD_eq_getElem?_getD, List.getElem?_set_ne (Ne.symm h)]

theorem setFut_length (cells : FutureCells) (i : Nat) (o : Outcome) :
    (setFut cells i o).length = cells.length := by
  simp [setFut]

theorem applyMutationResults_getD (rs : List MutationResult)
    (cells : List (Option Outcome)) (i : Nat)
    (h1 : i < cells.length) (h2 : i < rs.length) :
    (applyMutationResults rs cells).getD i none =
      match cells.getD i none with
      | some v => some v
      | none => some (.result (mutationResultValue (rs.getD i ⟨⟨[]⟩⟩))) := by
  induction rs generalizing cells i with
  | nil => exact absurd h2 (Nat.not_lt_zero i)
  | cons r rs ih =>
    cases cells with
    | nil => exact absurd h1 (Nat.not_lt_zero i)
    | cons c cs =>
      cases i with
      | zero => cases c <;> rfl
      | succ j =>
        have h1' : j < cs.length := Nat.lt_of_succ_lt_succ h1
        have h2' : j < rs.length := Nat.lt_of_succ_lt_succ h2
        cases c <;> simpa [applyMutationResults, List.getD] using ih cs j h1' h2'

theorem todoSlot_nil (sk : SerializedKey) : todoSlot [] sk = [] := rfl

theorem todoSlot_cons (k : SerializedKey) (fs : List Nat) (rest : Todo)
    (sk : SerializedKey) :
    todoSlot ((k, fs) :: rest) sk = if k = sk then fs else todoSlot rest sk := by
  by_cases h : k = sk <;> simp [todoSlot, List.find?_cons, h]

theorem todoSlot_todoAppend (td : Todo) (sk : SerializedKey) (f : Nat)
    (sk' : SerializedKey) :
    todoSlot (todoAppend td sk f) sk' =
      if sk = sk' then todoSlot td sk' ++ [f] else todoSlot td sk' := by
  induction td with
  | nil =>
    by_cases h : sk = sk' <;> simp [todoAppend, todoSlot_cons, todoSlot_nil, h]
  | cons p rest ih =>
    obtain ⟨k0, fs0⟩ := p
    by_cases h0 : k0 = sk
    · subst h0
      by_cases h : k0 = sk' <;>
        simp [todoAppend, todoSlot_cons, h]
    · by_cases h : k0 = sk'
      · subst h
        have hne : ¬ sk = k0 := fun hx => h0 hx.symm
        simp [todoAppend, h0, todoSlot_cons, hne]
      · simp [todoAppend, h0, todoSlot_cons, h, ih]

theorem todoSlot_todoExtend (td : Todo) (sk : SerializedKey) (fids : List Nat)
    (sk' : SerializedKey) :
    todoSlot (todoExtend td sk fids) sk' =
      if sk = sk' then todoSlot td sk' ++ fids else todoSlot td sk' := by
  induction td with
  | nil =>
    by_cases h : sk = sk' <;> simp [todoExtend, todoSlot_cons, todoSlot_nil, h]
  | cons p rest ih =>
    obtain ⟨k0, fs0⟩ := p
    by_cases h0 : k0 = sk
    · subst h0
      by_cases h : k0 = sk' <;>
        simp [todoExtend, todoSlot_cons, h]
    · by_cases h : k0 = sk'
      · subst h
        have hne : ¬ sk = k0 := fun hx => h0 hx.symm
        simp [todoExtend, h0, todoSlot_cons, hne]
      · simp [todoExtend, h0, todoSlot_cons, h, ih]

theorem todoAppend_keys (td : Todo) (sk : SerializedKey) (f : Nat) :
    (todoAppend td sk f).map (·.1) =
      if sk ∈ td.map (·.1) then td.map (·.1) else td.map (·.1) ++ [sk] := by
  induction td with
  | nil => simp [todoAppend]
  | cons p rest ih =>
    obtain ⟨k0, fs0⟩ := p
    by_cases h0 : k0 = sk
    · subst h0
      simp [todoAppend]
    · have hne : ¬ sk = k0 := fun hx => h0 hx.symm
      by_cases hmem : sk ∈ rest.map (·.1) <;>
        simp [todoAppend, h0, ih, hmem, hne]

theorem mem_todoSlot_exists (td : Todo) (sk : SerializedKey) (f : Nat)
    (h : f ∈ todoSlot td sk) : ∃ p ∈ td, p.1 = sk ∧ f ∈ p.2 := by
  induction td with
  | nil => simp [todoSlot_nil] at h
  | cons p rest ih =>
    obtain ⟨k0, fs0⟩ := p
    rw [todoSlot_cons] at h
    by_cases h0 : k0 = sk
    · rw [if_pos h0] at h
      exact ⟨(k0, fs0), List.mem_cons_self _ _, h0, h⟩
    · rw [if_neg h0] at h
      obtain ⟨q, hq, hqs, hqf⟩ := ih h
      exact ⟨q, List.mem_cons_of_mem _ hq, hqs, hqf⟩

theorem findBatch_setBatch_self (l : List (Options × LookupBatch)) (okey : Options)
    (b : LookupBatch) : findBatch (setBatch l okey b) okey = some b := by
  induction l with
  | nil => simp [setBatch, findBatch, List.find?_cons]
  | cons p rest ih =>
    obtain ⟨k0, b0⟩ := p
    by_cases h0 : k0 = okey
    · simp [setBatch, h0, findBatch, List.find?_cons]
    · simpa [setBatch, h0, findBatch, List.find?_cons] using ih

theorem findBatch_none_iff (l : List (Options × LookupBatch)) (okey : Options) :
    findBatch l okey = none ↔ ∀ p ∈ l, p.1 ≠ okey := by
  simp [findBatch, List.find?_eq_none]

theorem findBatch_append_single (l : List (Options × LookupBatch)) (okey : Options)
    (b : LookupBatch) (h : ∀ p ∈ l, p.1 ≠ okey) :
    findBatch (l ++ [(okey, b)]) okey = some b := by
  induction l with
  | nil => simp [findBatch, List.find?_cons]
  | cons p rest ih =>
    have hp : p.1 ≠ okey := h p (List.mem_cons_self _ _)
    have ih' := ih (fun q hq => h q (List.mem_cons_of_mem _ hq))
    simpa [findBatch, List.find?_cons, hp] using ih'

theorem setBatch_append_single (l : List (Options × LookupBatch)) (okey : Options)
    (b0 b : LookupBatch) (h : ∀ p ∈ l, p.1 ≠ okey) :
    setBatch (l ++ [(okey, b0)]) okey b = l ++ [(okey, b)] := by
  induction l with
  | nil => simp [setBatch]
  | cons p rest ih =>
    obtain ⟨k0, c0⟩ := p
    have hp : k0 ≠ okey := h (k0, c0) (List.mem_cons_self _ _)
    have ih' := ih (fun q hq => h q (List.mem_cons_of_mem _ hq))
    simp [setBatch, hp, ih']

theorem filter_ne_of_no_key (l : List (Options × LookupBatch)) (okey : Options)
    (h : ∀ p ∈ l, p.1 ≠ okey) : l.filter (fun p => p.1 ≠ okey) = l := by
  induction l with
  | nil => rfl
  | cons p rest ih =>
    have hp : p.1 ≠ okey := h p (List.mem_cons_self _ _)
    have ih' := ih (fun q hq => h q (List.mem_cons_of_mem _ hq))
    rw [List.filter_cons, if_pos (by simpa using hp), ih']

theorem todoSlot_mkTodoAux (ks : List Key) (td : Todo) (fid : Nat)
    (sk : SerializedKey) :
    todoSlot (mkTodoAux td ks fid) sk = todoSlot td sk ++ slotFids ks fid sk := by
  induction ks generalizing td fid with
  | nil => simp [mkTodoAux, slotFids]
  | cons k ks ih =>
    rw [mkTodoAux, ih, todoSlot_todoAppend]
    by_cases h : k.serialize = sk
    · simp [slotFids, h]
    · simp [slotFids, h]

theorem todoSlot_mkTodo (ks : List Key) (fid : Nat) (sk : SerializedKey) :
    todoSlot (mkTodo ks fid) sk = slotFids ks fid sk := by
  simpa [mkTodo, todoSlot_nil] using todoSlot_mkTodoAux ks [] fid sk

theorem mkTodoAux_keys_nodup (ks : List Key) (td : Todo) (fid : Nat)
    (h : (td.map (·.1)).Nodup) : ((mkTodoAux td ks fid).map (·.1)).Nodup := by
  induction ks generalizing td fid with
  | nil => exact h
  | cons k ks ih =>
    rw [mkTodoAux]
    refine ih _ _ ?_
    rw [todoAppend_keys]
    by_cases hmem : k.serialize ∈ td.map (·.1)
    · simpa [hmem] using h
    · rw [if_neg hmem]
      exact List.Nodup.append h (List.nodup_singleton _)
        (fun a ha hb => hmem ((List.mem_singleton.mp hb) ▸ ha))

theorem mkTodoAux_keys_mem (ks : List Key) (td : Todo) (fid : Nat)
    (sk : SerializedKey) :
    sk ∈ (mkTodoAux td ks fid).map (·.1) ↔
      sk ∈ td.map (·.1) ∨ sk ∈ ks.map Key.serialize := by
  induction ks generalizing td fid with
  | nil => simp [mkTodoAux]
  | cons k ks ih =>
    rw [mkTodoAux, ih, todoAppend_keys]
    by_cases hmem : k.serialize ∈ td.map (·.1)
    · by_cases hsk : sk = k.serialize
      · subst hsk
        simp [hmem]
      · simp [hmem, hsk]
    · by_cases hsk : sk = k.serialize
      · subst hsk
        simp [hmem]
      · simp [hmem, hsk, or_assoc]

theorem mem_slotFids (ks : List Key) (fid : Nat) (sk : SerializedKey) (f : Nat)
    (h : f ∈ slotFids ks fid sk) :
    fid ≤ f ∧ f - fid < ks.length ∧ (ks.getD (f - fid) ⟨[]⟩).serialize = sk := by
  induction ks generalizing fid with
  | nil => simp [slotFids] at h
  | cons k ks ih =>
    rw [slotFids, List.mem_append] at h
    rcases h with h | h
    · by_cases hk : k.serialize = sk
      · rw [if_pos hk, List.mem_singleton] at h
        subst h
        simp [hk]
      · rw [if_neg hk] at h
        simp at h
    · obtain ⟨h1, h2, h3⟩ := ih (fid + 1) h
      have hle : fid ≤ f := Nat.le_of_succ_le h1
      have hsub : f - fid = (f - (fid + 1)) + 1 := by omega
      refine ⟨hle, ?_, ?_⟩
      · simpa [hsub] using Nat.succ_lt_succ h2
      · rw [hsub]
        simpa using h3

theorem slotFids_disjoint (ks : List Key) (fid : Nat) (sk1 sk2 : SerializedKey)
    (f : Nat) (h1 : f ∈ slotFids ks fid sk1) (h2 : f ∈ slotFids ks fid sk2) :
    sk1 = sk2 := by
  obtain ⟨_, _, e1⟩ := mem_slotFids ks fid sk1 f h1
  obtain ⟨_, _, e2⟩ := mem_slotFids ks fid sk2 f h2
  rw [← e1, ← e2]

theorem mkTodo_disjoint (ks : List Key) (fid : Nat) :
    TodoDisjoint (mkTodo ks fid) := by
  intro f sk1 sk2 h1 h2
  rw [todoSlot_mkTodo] at h1 h2
  exact slotFids_disjoint ks fid sk1 sk2 f h1 h2

/-! ### Steps of `lookup` and their composition -/

theorem lookup_step (base : List (Options × LookupBatch)) (sc : List Options)
    (fid : Nat) (rp : List (List Key × ReadOptions)) (opts : Options) (td : Todo)
    (k : Key) (hok : _check_unsupported_options opts = .ok ())
    (hbase : ∀ p ∈ base, p.1 ≠ sortOptions opts) :
    lookup ⟨base ++ [(sortOptions opts, ⟨opts, td⟩)], sc, fid, rp⟩ k opts =
      .ok (⟨base ++ [(sortOptions opts, ⟨opts, todoAppend td k.serialize fid⟩)],
        sc, fid + 1, rp⟩, fid) := by
  have hfind := findBatch_append_single base (sortOptions opts) ⟨opts, td⟩ hbase
  have hset := setBatch_append_single base (sortOptions opts) ⟨opts, td⟩
    ⟨opts, todoAppend td k.serialize fid⟩ hbase
  simp only [lookup, hok, _get_batch_lookup, hfind, hset]

theorem lookupAll_steps (ks : List Key) (base : List (Options × LookupBatch))
    (sc : List Options) (fid : Nat) (rp : List (List Key × ReadOptions))
    (opts : Options) (td : Todo)
    (hok : _check_unsupported_options opts = .ok ())
    (hbase : ∀ p ∈ base, p.1 ≠ sortOptions opts) :
    lookupAll ⟨base ++ [(sortOptions opts, ⟨opts, td⟩)], sc, fid, rp⟩ opts ks =
      ⟨base ++ [(sortOptions opts, ⟨opts, mkTodoAux td ks fid⟩)],
        sc, fid + ks.length, rp⟩ := by
  induction ks generalizing td fid with
  | nil => simp [lookupAll, mkTodoAux]
  | cons k ks ih =>
    have hstep := lookup_step base sc fid rp opts td k hok hbase
    simp only [lookupAll, hstep]
    rw [ih]
    have : fid + 1 + ks.length = fid + (ks.length + 1) := by omega
    simp [mkTodoAux, this]

theorem lookupAll_fresh (w : LookupWorld) (opts : Options) (ks : List Key)
    (hok : _check_unsupported_options opts = .ok ())
    (hfresh : findBatch w.batches (sortOptions opts) = none) :
    lookupAll w opts ks =
      if ks.isEmpty then w
      else
        ⟨w.batches ++ [(sortOptions opts, ⟨opts, mkTodo ks w.nextFid⟩)],
          w.scheduled ++ [sortOptions opts], w.nextFid + ks.length, w.rpcs⟩ := by
  have hbase : ∀ p ∈ w.batches, p.1 ≠ sortOptions opts :=
    (findBatch_none_iff w.batches (sortOptions opts)).mp hfresh
  cases ks with
  | nil => simp [lookupAll]
  | cons k ks =>
    have hstep : lookup w k opts =
        .ok (⟨w.batches ++ [(sortOptions opts, ⟨opts, todoAppend [] k.serialize w.nextFid⟩)],
          w.scheduled ++ [sortOptions opts], w.nextFid + 1, w.rpcs⟩, w.nextFid) := by
      simp only [lookup, hok, _get_batch_lookup, hfresh]
      have hset := setBatch_append_single w.batches (sortOptions opts) ⟨opts, []⟩
        ⟨opts, todoAppend [] k.serialize w.nextFid⟩ hbase
      simp only [hset]
    simp only [lookupAll, hstep]
    rw [lookupAll_steps ks w.batches (w.scheduled ++ [sortOptions opts]) (w.nextFid + 1)
      w.rpcs opts (todoAppend [] k.serialize w.nextFid) hok hbase]
    have : w.nextFid + 1 + ks.length = w.nextFid + (ks.length + 1) := by omega
    simp [mkTodo, mkTodoAux, this]

/-! ### Membership in the callback's future assignments -/

theorem mem_lookupAssignments_error (todo : Todo) (e : Err) (f : Nat) (o : Outcome) :
    (f, o) ∈ lookupAssignments todo (.error e) ↔
      (∃ p ∈ todo, f ∈ p.2) ∧ o = .exception e := by
  simp only [lookupAssignments, List.mem_map, List.mem_flatten]
  constructor
  · rintro ⟨a, ⟨l, ⟨p, hp, rfl⟩, ha⟩, heq⟩
    rw [Prod.mk.injEq] at heq
    obtain ⟨rfl, rfl⟩ := heq
    exact ⟨⟨p, hp, ha⟩, rfl⟩
  · rintro ⟨⟨p, hp, hf⟩, rfl⟩
    exact ⟨f, ⟨p.2, ⟨⟨p, hp, rfl⟩, hf⟩⟩, rfl⟩

theorem mem_lookupAssignments_ok (todo : Todo) (resp : LookupResponse)
    (f : Nat) (o : Outcome) :
    (f, o) ∈ lookupAssignments todo (.ok resp) ↔
      (∃ r ∈ resp.missing,
        f ∈ todoSlot todo r.entity.key.serialize ∧ o = .result .vNotFound)
      ∨ (∃ r ∈ resp.found,
        f ∈ todoSlot todo r.entity.key.serialize ∧ o = .result (.vEntity r.entity)) := by
  simp only [lookupAssignments, List.mem_append, List.mem_flatten, List.mem_map]
  constructor
  · rintro (⟨l, ⟨r, hr, rfl⟩, hmem⟩ | ⟨l, ⟨r, hr, rfl⟩, hmem⟩)
    · rw [List.mem_map] at hmem
      obtain ⟨f1, hf1, heq⟩ := hmem
      rw [Prod.mk.injEq] at heq
      obtain ⟨rfl, rfl⟩ := heq
      exact Or.inl ⟨r, hr, hf1, rfl⟩
    · rw [List.mem_map] at hmem
      obtain ⟨f1, hf1, heq⟩ := hmem
      rw [Prod.mk.injEq] at heq
      obtain ⟨rfl, rfl⟩ := heq
      exact Or.inr ⟨r, hr, hf1, rfl⟩
  · rintro (⟨r, hr, hf, rfl⟩ | ⟨r, hr, hf, rfl⟩)
    · exact Or.inl ⟨_, ⟨r, hr, rfl⟩, List.mem_map.mpr ⟨f, hf, rfl⟩⟩
    · exact Or.inr ⟨_, ⟨r, hr, rfl⟩, List.mem_map.mpr ⟨f, hf, rfl⟩⟩

theorem serialize_parseKey (s : SerializedKey) : (parseKey s).serialize = s := by
  simp only [parseKey, Key.serialize, List.map_map]
  induction s with
  | nil => rfl
  | cons p rest ih => simp only [List.map_cons, ih, Function.comp_apply]

theorem _get_batch_lookup_okey (w : LookupWorld) (opts : Options) :
    (_get_batch_lookup w opts).2.1 = sortOptions opts := by
  rcases hfb : findBatch w.batches (sortOptions opts) with _ | b <;>
    simp [_get_batch_lookup, hfb]

theorem foldl_todoExtend_notmem (ds : List Key) (td : Todo) (g : Key → List Nat)
    (sk : SerializedKey) (h : sk ∉ ds.map Key.serialize) :
    todoSlot (ds.foldl (fun t k => todoExtend t k.serialize (g k)) td) sk =
      todoSlot td sk := by
  induction ds generalizing td with
  | nil => rfl
  | cons k0 ds ih =>
    have hne : k0.serialize ≠ sk := by
      intro hx
      exact h (by simp [hx])
    have hrest : sk ∉ ds.map Key.serialize := by
      intro hx
      exact h (by simp [hx])
    rw [List.foldl_cons, ih _ hrest, todoSlot_todoExtend, if_neg hne]

theorem foldl_todoExtend_mem (ds : List Key) (td : Todo) (g : Key → List Nat)
    (k : Key) (hmem : k ∈ ds) (hnodup : (ds.map Key.serialize).Nodup) :
    todoSlot (ds.foldl (fun t k' => todoExtend t k'.serialize (g k')) td) k.serialize =
      todoSlot td k.serialize ++ g k := by
  induction ds generalizing td with
  | nil => simp at hmem
  | cons k0 ds ih =>
    have hpair : k0.serialize ∉ ds.map Key.serialize ∧ (ds.map Key.serialize).Nodup := by
      have h := hnodup
      rw [List.map_cons, List.nodup_cons] at h
      exact h
    rcases List.mem_cons.mp hmem with rfl | hk
    · rw [List.foldl_cons, foldl_todoExtend_notmem ds _ g _ hpair.1,
        todoSlot_todoExtend, if_pos rfl]
    · have hne : k0.serialize ≠ k.serialize := by
        intro hx
        exact hpair.1 (hx ▸ List.mem_map_of_mem Key.serialize hk)
      rw [List.foldl_cons, ih _ hk hpair.2, todoSlot_todoExtend, if_neg hne]

theorem getD_set_self {α : Type} (l : List α) (i : Nat) (a d : α) (h : i < l.length) :
    (l.set i a).getD i d = a := by
  rw [List.getD_eq_getElem?_getD, List.getElem?_set_self h]
  rfl

theorem getD_set_ne {α : Type} (l : List α) (i j : Nat) (a d : α) (h : j ≠ i) :
    (l.set i a).getD j d = l.getD j d := by
  rw [List.getD_eq_getElem?_getD, List.getElem?_set_ne (Ne.symm h),
    ← List.getD_eq_getElem?_getD]

theorem getD_mem {α : Type} (l : List α) (j : Nat) (d : α) (h : j < l.length) :
    l.getD j d ∈ l := by
  rw [List.getD_eq_getElem?_getD, List.getElem?_eq_getElem h]
  exact List.getElem_mem h

theorem getD_setFut_ne (cells : FutureCells) (i j : Nat) (o : Outcome) (h : j ≠ i) :
    (setFut cells i o).getD j none = cells.getD j none :=
  getD_set_ne cells i j (some o) none h

theorem getD_setFut_self (cells : FutureCells) (i : Nat) (o : Outcome)
    (h : i < cells.length) : (setFut cells i o).getD i none = some o :=
  getD_set_self cells i (some o) none h

theorem applyAllocSuccess_store_stable (ms : List Nat) (ks : List Key) (fs : List Nat)
    (store : List Mutation) (cells : FutureCells) (m : Nat) (hm : m ∉ ms) :
    (applyAllocSuccess ms ks fs store cells).1.getD m (Mutation.delete ⟨[]⟩) =
      store.getD m (Mutation.delete ⟨[]⟩) := by
  induction ms generalizing ks fs store cells with
  | nil => rfl
  | cons m0 ms ih =>
    cases ks with
    | nil => rfl
    | cons k0 ks =>
      cases fs with
      | nil => rfl
      | cons f0 fs =>
        have hm0 : m ≠ m0 := fun h => hm (h ▸ List.mem_cons_self m0 ms)
        have hmr : m ∉ ms := fun h => hm (List.mem_cons_of_mem _ h)
        rw [applyAllocSuccess, ih ks fs _ _ hmr, getD_set_ne _ _ _ _ _ hm0]

theorem applyAllocSuccess_cells_stable (ms : List Nat) (ks : List Key) (fs : List Nat)
    (store : List Mutation) (cells : FutureCells) (f : Nat) (hf : f ∉ fs) :
    (applyAllocSuccess ms ks fs store cells).2.getD f none = cells.getD f none := by
  induction ms generalizing ks fs store cells with
  | nil => rfl
  | cons m0 ms ih =>
    cases ks with
    | nil => rfl
    | cons k0 ks =>
      cases fs with
      | nil => rfl
      | cons f0 fs =>
        have hf0 : f ≠ f0 := fun h => hf (h ▸ List.mem_cons_self f0 fs)
        have hfr : f ∉ fs := fun h => hf (List.mem_cons_of_mem _ h)
        rw [applyAllocSuccess, ih ks fs _ _ hfr]
        exact getD_set_ne _ _ _ _ _ hf0

theorem applyAllocSuccess_at (ms : List Nat) (ks : List Key) (fs : List Nat)
    (store : List Mutation) (cells : FutureCells) (j : Nat)
    (hl1 : ms.length ≤ ks.length) (hl2 : ms.length ≤ fs.length)
    (hj : j < ms.length) (hmnodup : ms.Nodup) (hfnodup : fs.Nodup)
    (hmlt : ms.getD j 0 < store.length) (hflt : fs.getD j 0 < cells.length) :
    (applyAllocSuccess ms ks fs store cells).1.getD (ms.getD j 0) (Mutation.delete ⟨[]⟩)
      = (store.getD (ms.getD j 0) (Mutation.delete ⟨[]⟩)).withAllocatedKey (ks.getD j ⟨[]⟩)
    ∧ (applyAllocSuccess ms ks fs store cells).2.getD (fs.getD j 0) none
      = some (.result (.vKey (ks.getD j ⟨[]⟩))) := by
  induction ms generalizing ks fs store cells j with
  | nil => exact absurd hj (Nat.not_lt_zero j)
  | cons m0 ms ih =>
    cases ks with
    | nil => exact absurd hl1 (by simp)
    | cons k0 ks =>
      cases fs with
      | nil => exact absurd hl2 (by simp)
      | cons f0 fs =>
        have hmn : m0 ∉ ms ∧ ms.Nodup := by
          have h := hmnodup
          rw [List.nodup_cons] at h
          exact h
        have hfn : f0 ∉ fs ∧ fs.Nodup := by
          have h := hfnodup
          rw [List.nodup_cons] at h
          exact h
        cases j with
        | zero =>
          simp only [List.getD_cons_zero] at hmlt hflt ⊢
          rw [applyAllocSuccess]
          constructor
          · rw [applyAllocSuccess_store_stable ms ks fs _ _ m0 hmn.1]
            exact getD_set_self _ _ _ _ hmlt
          · rw [applyAllocSuccess_cells_stable ms ks fs _ _ f0 hfn.1]
            exact getD_set_self _ _ _ _ hflt
        | succ j =>
          simp only [List.getD_cons_succ] at hmlt hflt ⊢
          have hj' : j < ms.length := Nat.lt_of_succ_lt_succ hj
          have hmne : ms.getD j 0 ≠ m0 := by
            intro h
            exact hmn.1 (h ▸ getD_mem ms j 0 hj')
          have hfne : fs.getD j 0 ≠ f0 := by
            intro h
            have hj2 : j < fs.length := Nat.lt_of_lt_of_le hj' (Nat.le_of_succ_le_succ hl2)
            exact hfn.1 (h ▸ getD_mem fs j 0 hj2)
          rw [applyAllocSuccess]
          have hih := ih ks fs
            (store.set m0 ((store.getD m0 (Mutation.delete ⟨[]⟩)).withAllocatedKey k0))
            (setFut cells f0 (.result (.vKey k0))) j
            (Nat.le_of_succ_le_succ hl1) (Nat.le_of_succ_le_succ hl2) hj' hmn.2 hfn.2
            (by simpa using hmlt) (by simpa [setFut] using hflt)
          constructor
          · rw [hih.1, getD_set_ne _ _ _ _ _ hmne]
          · rw [hih.2]

theorem foldl_setFut_length (fs : List Nat) (cells : FutureCells) (o : Outcome) :
    (fs.foldl (fun cs g => setFut cs g o) cells).length = cells.length := by
  induction fs generalizing cells with
  | nil => rfl
  | cons g fs ih => rw [List.foldl_cons, ih, setFut_length]

theorem foldl_setFut_stable (fs : List Nat) (cells : FutureCells) (o : Outcome)
    (f : Nat) (hf : f ∉ fs) :
    (fs.foldl (fun cs g => setFut cs g o) cells).getD f none = cells.getD f none := by
  induction fs generalizing cells with
  | nil => rfl
  | cons g fs ih =>
    have hg : f ≠ g := fun h => hf (h ▸ List.mem_cons_self g fs)
    have hfr : f ∉ fs := fun h => hf (List.mem_cons_of_mem _ h)
    rw [List.foldl_cons, ih _ hfr]
    exact getD_set_ne _ _ _ _ _ hg

theorem foldl_setFut_mem (fs : List Nat) (cells : FutureCells) (o : Outcome)
    (f : Nat) (hf : f ∈ fs) (hlt : f < cells.length) :
    (fs.foldl (fun cs g => setFut cs g o) cells).getD f none = some o := by
  induction fs generalizing cells with
  | nil => simp at hf
  | cons g fs ih =>
    rw [List.foldl_cons]
    by_cases hmem : f ∈ fs
    · exact ih _ hmem (by simpa [setFut] using hlt)
    · have hfg : f = g := by
        rcases List.mem_cons.mp hf with h | h
        · exact h
        · exact absurd h hmem
      subst hfg
      rw [foldl_setFut_stable fs _ o f hmem]
      exact getD_set_self _ _ _ _ hlt

theorem firstUndoneIdx_none (w : TxnWorld) (l : List Nat)
    (h : firstUndoneIdx w l = none) : ∀ f ∈ l, w.isDone f = true := by
  induction l with
  | nil => simp
  | cons g l ih =>
    rw [firstUndoneIdx] at h
    by_cases hd : w.isDone g
    · rw [if_pos hd] at h
      intro f hf
      rcases List.mem_cons.mp hf with rfl | hf
      · exact hd
      · exact ih (by simpa using h) f hf
    · rw [if_neg hd] at h
      simp at h

/-! ## Claim C3 -/

/-- Claim C3: lookup calls issued with identical options within one
scheduling pass all land in the same lookup batch; keys are deduplicated
by canonical serialized form, each distinct key holding the future list of
all its callers in order; the flush issues exactly one Lookup RPC listing
each distinct key exactly once; and every future registered for a
duplicated key receives the same found/missing outcome. -/
theorem c3_lookup_coalescing_dedup (w : LookupWorld) (opts : Options) (ks : List Key)
    (hok : _check_unsupported_options opts = .ok ())
    (hfresh : findBatch w.batches (sortOptions opts) = none)
    (hne : ¬ ks.isEmpty) :
    lookupAll w opts ks =
      ⟨w.batches ++ [(sortOptions opts, ⟨opts, mkTodo ks w.nextFid⟩)],
        w.scheduled ++ [sortOptions opts], w.nextFid + ks.length, w.rpcs⟩
    ∧ ((mkTodo ks w.nextFid).map (·.1)).Nodup
    ∧ (∀ sk, sk ∈ (mkTodo ks w.nextFid).map (·.1) ↔ sk ∈ ks.map Key.serialize)
    ∧ (∀ sk, todoSlot (mkTodo ks w.nextFid) sk = slotFids ks w.nextFid sk)
    ∧ (lookupRequestKeys ⟨opts, mkTodo ks w.nextFid⟩).map Key.serialize
        = (mkTodo ks w.nextFid).map (·.1)
    ∧ (lookupRequestKeys ⟨opts, mkTodo ks w.nextFid⟩).Nodup
    ∧ (∀ ctxTxn ro, _get_read_options opts ctxTxn = .ok ro →
        runLookupIdle (lookupAll w opts ks) (sortOptions opts) ctxTxn =
          (⟨w.batches, (w.scheduled ++ [sortOptions opts]).erase (sortOptions opts),
            w.nextFid + ks.length,
            w.rpcs ++ [(lookupRequestKeys ⟨opts, mkTodo ks w.nextFid⟩, ro)]⟩, none))
    ∧ (∀ rpc sk f1 f2, f1 ∈ todoSlot (mkTodo ks w.nextFid) sk →
        f2 ∈ todoSlot (mkTodo ks w.nextFid) sk →
        ∀ o, (f1, o) ∈ lookupAssignments (mkTodo ks w.nextFid) rpc ↔
          (f2, o) ∈ lookupAssignments (mkTodo ks w.nextFid) rpc) := by
  have hbase : ∀ p ∈ w.batches, p.1 ≠ sortOptions opts :=
    (findBatch_none_iff w.batches (sortOptions opts)).mp hfresh
  have hchar : lookupAll w opts ks =
      ⟨w.batches ++ [(sortOptions opts, ⟨opts, mkTodo ks w.nextFid⟩)],
        w.scheduled ++ [sortOptions opts], w.nextFid + ks.length, w.rpcs⟩ := by
    rw [lookupAll_fresh w opts ks hok hfresh, if_neg (by simpa using hne)]
  have hkeysnodup : ((mkTodo ks w.nextFid).map (·.1)).Nodup :=
    mkTodoAux_keys_nodup ks [] w.nextFid (by simp)
  have hreqmap : (lookupRequestKeys ⟨opts, mkTodo ks w.nextFid⟩).map Key.serialize
      = (mkTodo ks w.nextFid).map (·.1) := by
    simp only [lookupRequestKeys, List.map_map]
    refine List.map_congr_left ?_
    intro p _
    exact serialize_parseKey p.1
  refine ⟨hchar, hkeysnodup, ?_, ?_, hreqmap, ?_, ?_, ?_⟩
  · intro sk
    simpa [mkTodo] using mkTodoAux_keys_mem ks [] w.nextFid sk
  · exact todoSlot_mkTodo ks w.nextFid
  · have hmn : ((lookupRequestKeys ⟨opts, mkTodo ks w.nextFid⟩).map Key.serialize).Nodup := by
      rw [hreqmap]
      exact hkeysnodup
    exact List.Nodup.of_map Key.serialize hmn
  · intro ctxTxn ro hro
    rw [hchar]
    have hfind := findBatch_append_single w.batches (sortOptions opts)
      ⟨opts, mkTodo ks w.nextFid⟩ hbase
    simp only [runLookupIdle, hfind, hro]
    have hfilter : ((w.batches ++ [(sortOptions opts,
        (⟨opts, mkTodo ks w.nextFid⟩ : LookupBatch))]).filter
        (fun p => p.1 ≠ sortOptions opts)) = w.batches := by
      rw [List.filter_append]
      have h1 := filter_ne_of_no_key w.batches (sortOptions opts) hbase
      rw [h1]
      simp
    simp [hfilter]
    intro a b hab
    exact hbase (a, b) hab
  · intro rpc sk f1 f2 hf1 hf2 o
    have hdisj := mkTodo_disjoint ks w.nextFid
    have key : ∀ g1 g2, g1 ∈ todoSlot (mkTodo ks w.nextFid) sk →
        g2 ∈ todoSlot (mkTodo ks w.nextFid) sk →
        (g1, o) ∈ lookupAssignments (mkTodo ks w.nextFid) rpc →
        (g2, o) ∈ lookupAssignments (mkTodo ks w.nextFid) rpc := by
      intro g1 g2 hg1 hg2 hmem
      cases rpc with
      | error e =>
        rw [mem_lookupAssignments_error] at hmem ⊢
        obtain ⟨_, rfl⟩ := hmem
        have hex := mem_todoSlot_exists _ _ _ hg2
        exact ⟨hex.imp (fun p hp => ⟨hp.1, hp.2.2⟩), rfl⟩
      | ok resp =>
        rw [mem_lookupAssignments_ok] at hmem ⊢
        rcases hmem with ⟨r, hr, hfr, rfl⟩ | ⟨r, hr, hfr, rfl⟩
        · have heq := hdisj g1 _ _ hfr hg1
          exact Or.inl ⟨r, hr, heq ▸ hg2, rfl⟩
        · have heq := hdisj g1 _ _ hfr hg1
          exact Or.inr ⟨r, hr, heq ▸ hg2, rfl⟩
    exact ⟨key f1 f2 hf1 hf2, key f2 f1 hf2 hf1⟩

/-- Witness for C3 at a concrete input: two lookups of the same key with
empty options, starting from an empty session. -/
theorem c3_lookup_coalescing_dedup_witness :
    lookupAll ⟨[], [], 0, []⟩ [] [⟨[⟨1, []⟩]⟩, ⟨[⟨1, []⟩]⟩] =
      ⟨[([], ⟨[], [([(1, [])], [0, 1])]⟩)], [[]], 2, []⟩
    ∧ todoSlot (mkTodo [⟨[⟨1, []⟩]⟩, ⟨[⟨1, []⟩]⟩] 0) [(1, [])] = [0, 1] := by
  have h := c3_lookup_coalescing_dedup ⟨[], [], 0, []⟩ [] [⟨[⟨1, []⟩]⟩, ⟨[⟨1, []⟩]⟩]
    rfl rfl (by decide)
  refine ⟨?_, ?_⟩
  · rw [h.1]
    decide
  · rw [h.2.2.2.1]
    decide

/-! ## Claim C5 -/

/-- Claim C5: for every completed lookup RPC, an RPC exception is
propagated to every future of every key in the batch; otherwise each
found entity resolves all futures of its key with that entity, and each
missing key resolves all its futures with the `_NOT_FOUND` sentinel value
(a result, not an exception). -/
theorem c5_lookup_callback_fanout (todo : Todo) :
    (∀ e : Err, ∀ p ∈ todo, ∀ f ∈ p.2,
      (f, Outcome.exception e) ∈ lookupAssignments todo (.error e))
    ∧ (∀ resp : LookupResponse, ∀ r ∈ resp.found,
        ∀ f ∈ todoSlot todo r.entity.key.serialize,
        (f, Outcome.result (.vEntity r.entity)) ∈ lookupAssignments todo (.ok resp))
    ∧ (∀ resp : LookupResponse, ∀ r ∈ resp.missing,
        ∀ f ∈ todoSlot todo r.entity.key.serialize,
        (f, Outcome.result .vNotFound) ∈ lookupAssignments todo (.ok resp)) := by
  refine ⟨?_, ?_, ?_⟩
  · intro e p hp f hf
    exact (mem_lookupAssignments_error todo e f _).mpr ⟨⟨p, hp, hf⟩, rfl⟩
  · intro resp r hr f hf
    exact (mem_lookupAssignments_ok todo resp f _).mpr (Or.inr ⟨r, hr, hf, rfl⟩)
  · intro resp r hr f hf
    exact (mem_lookupAssignments_ok todo resp f _).mpr (Or.inl ⟨r, hr, hf, rfl⟩)

/-- Witness for C5 at a concrete input: a batch with one key and two
futures; the error fan-out, a found resolution, and a missing resolution
are all observed. -/
theorem c5_lookup_callback_fanout_witness :
    let sk : SerializedKey := [(1, [])]
    let todo : Todo := [(sk, [0, 1])]
    let e : Entity := ⟨⟨[⟨1, []⟩]⟩, 42⟩
    (1, Outcome.exception 7) ∈ lookupAssignments todo (.error 7)
    ∧ (0, Outcome.result (.vEntity e)) ∈ lookupAssignments todo (.ok ⟨[⟨e⟩], [], []⟩)
    ∧ (1, Outcome.result .vNotFound) ∈ lookupAssignments todo (.ok ⟨[], [⟨e⟩], []⟩) := by
  intro sk todo e
  have h := c5_lookup_callback_fanout todo
  refine ⟨?_, ?_, ?_⟩
  · exact h.1 7 (sk, [0, 1]) (by decide) 1 (by decide)
  · exact h.2.1 ⟨[⟨e⟩], [], []⟩ ⟨e⟩ (by decide) 0 (by decide)
  · exact h.2.2 ⟨[], [⟨e⟩], []⟩ ⟨e⟩ (by decide) 1 (by decide)

/-! ## Claim C6 -/

/-- Claim C6: every key reported deferred in a lookup response is
re-submitted into the batch now open under the same option key, carrying
over its original futures unchanged — the deferral neither resolves nor
fails them — and the deferral issues no RPC synchronously; at most one
retry flush is scheduled (none if a batch for the option key is already
open). -/
theorem c6_deferred_transparent_requeue (w : LookupWorld) (b : LookupBatch)
    (resp : LookupResponse)
    (hdef : ¬ resp.deferred.isEmpty)
    (hnodup : (resp.deferred.map Key.serialize).Nodup)
    (hdisj : TodoDisjoint b.todo)
    (hsep : ∀ k ∈ resp.deferred,
      (∀ r ∈ resp.found, r.entity.key.serialize ≠ k.serialize)
      ∧ (∀ r ∈ resp.missing, r.entity.key.serialize ≠ k.serialize)) :
    (∀ k ∈ resp.deferred,
      todoSlot (currentTodo (lookupCallbackWorld w b (.ok resp)) (sortOptions b.options))
          k.serialize =
        todoSlot (currentTodo w (sortOptions b.options)) k.serialize
          ++ todoSlot b.todo k.serialize)
    ∧ (∀ k ∈ resp.deferred, ∀ f ∈ todoSlot b.todo k.serialize, ∀ o,
        (f, o) ∉ lookupAssignments b.todo (.ok resp))
    ∧ (lookupCallbackWorld w b (.ok resp)).rpcs = w.rpcs
    ∧ ((lookupCallbackWorld w b (.ok resp)).scheduled = w.scheduled
        ∨ (lookupCallbackWorld w b (.ok resp)).scheduled =
            w.scheduled ++ [sortOptions b.options]) := by
  have hnotresolved : ∀ k ∈ resp.deferred, ∀ f ∈ todoSlot b.todo k.serialize, ∀ o,
      (f, o) ∉ lookupAssignments b.todo (.ok resp) := by
    intro k hk f hf o hmem
    rw [mem_lookupAssignments_ok] at hmem
    rcases hmem with ⟨r, hr, hfr, _⟩ | ⟨r, hr, hfr, _⟩
    · exact (hsep k hk).2 r hr (hdisj f _ _ hfr hf)
    · exact (hsep k hk).1 r hr (hdisj f _ _ hfr hf)
  rcases hfb : findBatch w.batches (sortOptions b.options) with _ | nb
  · -- no open batch: one is created and exactly one flush is scheduled
    have hbase : ∀ p ∈ w.batches, p.1 ≠ sortOptions b.options :=
      (findBatch_none_iff _ _).mp hfb
    have hset := setBatch_append_single w.batches (sortOptions b.options)
      ⟨b.options, []⟩
      ⟨b.options, resp.deferred.foldl
        (fun td k => todoExtend td k.serialize (todoSlot b.todo k.serialize)) []⟩
      hbase
    have hworld : lookupCallbackWorld w b (.ok resp) =
        { w with
            batches := w.batches ++ [(sortOptions b.options,
              ⟨b.options, resp.deferred.foldl
                (fun td k => todoExtend td k.serialize (todoSlot b.todo k.serialize)) []⟩)],
            scheduled := w.scheduled ++ [sortOptions b.options] } := by
      simp only [lookupCallbackWorld]
      rw [if_neg hdef]
      simp only [_get_batch_lookup, hfb, hset]
    refine ⟨?_, hnotresolved, ?_, ?_⟩
    · intro k hk
      rw [hworld]
      have hfind := findBatch_append_single w.batches (sortOptions b.options)
        ⟨b.options, resp.deferred.foldl
          (fun td k => todoExtend td k.serialize (todoSlot b.todo k.serialize)) []⟩
        hbase
      simp only [currentTodo, hfind, hfb]
      rw [foldl_todoExtend_mem resp.deferred [] _ k hk hnodup]
    · rw [hworld]
    · rw [hworld]
      exact Or.inr rfl
  · -- an open batch exists: it is reused and no new flush is scheduled
    have hset := findBatch_setBatch_self w.batches (sortOptions b.options)
      ⟨nb.options, resp.deferred.foldl
        (fun td k => todoExtend td k.serialize (todoSlot b.todo k.serialize)) nb.todo⟩
    have hworld : lookupCallbackWorld w b (.ok resp) =
        { w with
            batches := setBatch w.batches (sortOptions b.options)
              ⟨nb.options, resp.deferred.foldl
                (fun td k => todoExtend td k.serialize (todoSlot b.todo k.serialize))
                nb.todo⟩ } := by
      simp only [lookupCallbackWorld]
      rw [if_neg hdef]
      simp only [_get_batch_lookup, hfb]
    refine ⟨?_, hnotresolved, ?_, ?_⟩
    · intro k hk
      rw [hworld]
      simp only [currentTodo, hset, hfb]
      rw [foldl_todoExtend_mem resp.deferred nb.todo _ k hk hnodup]
    · rw [hworld]
    · rw [hworld]
      exact Or.inl rfl

/-- Witness for C6 at a concrete input: a flushed batch whose only key is
deferred; the key is requeued into a freshly created batch with its
original future, nothing is resolved, and no RPC is issued. -/
theorem c6_deferred_transparent_requeue_witness :
    let k1 : Key := ⟨[⟨1, []⟩]⟩
    let b : LookupBatch := ⟨[], mkTodo [k1] 0⟩
    let resp : LookupResponse := ⟨[], [], [k1]⟩
    todoSlot (currentTodo (lookupCallbackWorld ⟨[], [], 0, []⟩ b (.ok resp))
        (sortOptions [])) k1.serialize = [0]
    ∧ (lookupCallbackWorld ⟨[], [], 0, []⟩ b (.ok resp)).rpcs = []
    ∧ (∀ o, (0, o) ∉ lookupAssignments b.todo (.ok resp)) := by
  intro k1 b resp
  have h := c6_deferred_transparent_requeue ⟨[], [], 0, []⟩ b resp
    (by decide) (by decide) (mkTodo_disjoint [k1] 0) (by simp)
  refine ⟨?_, h.2.2.1, ?_⟩
  · have h1 := h.1 k1 (List.mem_singleton.mpr rfl)
    rw [h1]
    decide
  · intro o
    exact h.2.1 k1 (List.mem_singleton.mpr rfl) 0 (by decide) o

/-! ## Claim C2 -/

/-- Claim C2 counterexample: a lookup whose options carry both a
transaction and EVENTUAL read consistency does not fail at call time —
the call returns a future normally and a batch is created holding the
key, contradicting the claim that a validation error is raised
synchronously before any batch is created. -/
theorem c2_lookup_eventual_in_txn_counterexample :
    let opts : Options := [(kTransaction, .txnV [1]), (kReadConsistency, .eventualV)]
    let w0 : LookupWorld := ⟨[], [], 0, []⟩
    let res := lookup w0 ⟨[⟨5, []⟩]⟩ opts
    (∃ w1 fid, res = .ok (w1, fid)
      ∧ findBatch w1.batches (sortOptions opts) =
          some ⟨opts, [([(5, [])], [0])]⟩) := by
  intro opts w0 res
  refine ⟨⟨[(opts, ⟨opts, [([(5, [])], [0])]⟩)], [opts], 1, []⟩, 0, ?_, ?_⟩
  · rfl
  · rfl

/-- Claim C2 amended: with a transaction and EVENTUAL consistency in the
effective options, `lookup` itself raises no validation error — it
creates/extends a batch and enqueues the key — and the `ValueError` is
raised only when the batch's flush idle callback runs `_get_read_options`,
at which point the batch has already been removed from the registry and
no Lookup RPC is issued. -/
theorem c2_validation_error_at_flush (w : LookupWorld) (opts : Options) (k : Key)
    (ctxTxn : OptVal)
    (hok : _check_unsupported_options opts = .ok ())
    (htxn : _get_transaction opts ctxTxn ≠ .noneV)
    (hev : (if optGetD opts kReadConsistency = .noneV then optGetD opts kReadPolicy
            else optGetD opts kReadConsistency) = .eventualV) :
    (∃ w1 fid, lookup w k opts = .ok (w1, fid)
      ∧ (findBatch w1.batches (sortOptions opts)).isSome)
    ∧ (∀ w2 : LookupWorld, ∀ b : LookupBatch,
        findBatch w2.batches (sortOptions opts) = some b → b.options = opts →
        (runLookupIdle w2 (sortOptions opts) ctxTxn).2 =
          some (.valueError "read_consistency must be EVENTUAL when in transaction")
        ∧ (runLookupIdle w2 (sortOptions opts) ctxTxn).1.rpcs = w2.rpcs) := by
  have herr : _get_read_options opts ctxTxn =
      .error (.valueError "read_consistency must be EVENTUAL when in transaction") := by
    simp only [_get_read_options]
    rw [if_pos ⟨htxn, hev⟩]
  constructor
  · rcases hgb : _get_batch_lookup w opts with ⟨w1, okey1, b1⟩
    have hkey : okey1 = sortOptions opts := by
      have h := _get_batch_lookup_okey w opts
      rw [hgb] at h
      exact h
    refine ⟨{ w1 with
        batches := setBatch w1.batches okey1
          ⟨b1.options, todoAppend b1.todo k.serialize w1.nextFid⟩,
        nextFid := w1.nextFid + 1 }, w1.nextFid, ?_, ?_⟩
    · simp only [lookup, hok, hgb]
    · rw [← hkey, findBatch_setBatch_self]
      rfl
  · intro w2 b hb hopts
    constructor
    · simp [runLookupIdle, hb, hopts, herr]
    · simp [runLookupIdle, hb, hopts, herr]

/-- Witness for the amended C2: concrete options carrying a transaction
and EVENTUAL consistency; the lookup succeeds, and the flush raises the
ValueError without issuing an RPC. -/
theorem c2_validation_error_at_flush_witness :
    let opts : Options := [(kTransaction, .txnV [1]), (kReadConsistency, .eventualV)]
    (∃ w1 fid, lookup ⟨[], [], 0, []⟩ ⟨[⟨5, []⟩]⟩ opts = .ok (w1, fid)
      ∧ (findBatch w1.batches (sortOptions opts)).isSome)
    ∧ (runLookupIdle ⟨[(opts, ⟨opts, [([(5, [])], [0])]⟩)], [opts], 1, []⟩
          (sortOptions opts) .noneV).2 =
        some (.valueError "read_consistency must be EVENTUAL when in transaction") := by
  intro opts
  have h := c2_validation_error_at_flush ⟨[], [], 0, []⟩ opts ⟨[⟨5, []⟩]⟩ .noneV
    rfl (by decide) (by decide)
  refine ⟨h.1, ?_⟩
  exact (h.2 ⟨[(opts, ⟨opts, [([(5, [])], [0])]⟩)], [opts], 1, []⟩
    ⟨opts, [([(5, [])], [0])]⟩ rfl rfl).1

/-! ## Claim C4 -/

/-- Claim C4: for every commit response processed by `_process_commit`,
the i-th mutation result resolves the i-th submitted future, regardless
of mutation kind; a future resolves with the backend's returned key when
that key's path is non-empty and with `None` when the path is empty; and
futures that are already resolved are left untouched, both on success
demultiplexing and on error propagation. -/
theorem c4_process_commit_positional (futures : List (Option Outcome)) (i : Nat)
    (hi : i < futures.length) :
    (∀ exc : Err,
      (futures.getD i none = none →
        (_process_commit (.error exc) futures).getD i none = some (.exception exc))
      ∧ (∀ v, futures.getD i none = some v →
        (_process_commit (.error exc) futures).getD i none = some v))
    ∧ (∀ response : CommitResponse, i < response.mutation_results.length →
      let r := response.mutation_results.getD i ⟨⟨[]⟩⟩
      (futures.getD i none = none →
        (_process_commit (.ok response) futures).getD i none =
          some (.result (if r.key.path ≠ [] then .vKey r.key else .vNone)))
      ∧ (∀ v, futures.getD i none = some v →
        (_process_commit (.ok response) futures).getD i none = some v)) := by
  have hgd : futures.getD i none = futures[i] := by
    rw [List.getD_eq_getElem?_getD, List.getElem?_eq_getElem hi]
    rfl
  constructor
  · intro exc
    have hmap : (_process_commit (.error exc) futures).getD i none =
        (match futures[i] with
          | none => some (.exception exc)
          | some v => some v) := by
      simp only [_process_commit]
      rw [List.getD_eq_getElem?_getD, List.getElem?_map, List.getElem?_eq_getElem hi]
      rfl
    constructor
    · intro hnone
      rw [hmap, ← hgd, hnone]
    · intro v hv
      rw [hmap, ← hgd, hv]
  · intro response hlen
    have happ := applyMutationResults_getD response.mutation_results futures i hi hlen
    constructor
    · intro hnone
      simp only [_process_commit, happ, hnone, mutationResultValue]
    · intro v hv
      simp only [_process_commit, happ, hv]

/-- Witness for C4 at a concrete input: three futures, the middle one
already resolved; both the success and the error branch behave as
claimed. -/
theorem c4_process_commit_positional_witness :
    let futures : List (Option Outcome) := [none, some (.result .vNone), none]
    let response : CommitResponse :=
      ⟨[⟨⟨[⟨5, []⟩]⟩⟩, ⟨⟨[⟨6, []⟩]⟩⟩, ⟨⟨[]⟩⟩]⟩
    (futures.getD 0 none = none →
      (_process_commit (.ok response) futures).getD 0 none =
        some (.result (.vKey ⟨[⟨5, []⟩]⟩))) ∧
    (∀ v, futures.getD 1 none = some v →
      (_process_commit (.ok response) futures).getD 1 none = some v) := by
  intro futures response
  refine ⟨?_, ?_⟩
  · intro h
    have := (c4_process_commit_positional futures 0 (by decide)).2 response (by decide)
    have h2 := this.1 h
    simpa using h2
  · intro v hv
    exact ((c4_process_commit_positional futures 1 (by decide)).2 response (by decide)).2 v hv

/-! ## Claims C9 and C10 -/

/-- Claim C9: for every `put` or `delete` call whose options contain no
`transaction` key, the effective transaction is the current context's
transaction; when the context holds an open (non-empty) transaction id
the call routes to the transactional commit batch for that id — the batch
`_get_commit_batch` keeps registered per transaction — and the call
routes to the non-transactional batch exactly when the context
transaction is also absent. -/
theorem c9_put_routing (opts : Options) (ctx : OptVal)
    (hno : optGet opts kTransaction = none)
    (hctx : ctx = .noneV ∨ ∃ t, ctx = .txnV t ∧ t ≠ []) :
    _get_transaction opts ctx = ctx
    ∧ (∀ t, ctx = .txnV t → t ≠ [] → putRoute opts ctx = .txnBatch ctx)
    ∧ (putRoute opts ctx = .nonTxnBatch ↔ ctx = .noneV)
    ∧ (∀ reg : CommitBatches, ∀ next b : Nat,
        (reg.find? (fun p => p.1 = ctx)).map (·.2) = some b →
        opts.filter (fun p => p.1 ≠ kTransaction) = [] →
        _get_commit_batch ctx opts reg next = (reg, next, .ok b)) := by
  have heff : _get_transaction opts ctx = ctx := by
    simp [_get_transaction, hno]
  refine ⟨heff, ?_, ?_, ?_⟩
  · intro t ht hne
    subst ht
    simp [putRoute, heff, OptVal.truthy, hne]
  · constructor
    · intro hroute
      rcases hctx with h | ⟨t, ht, hne⟩
      · exact h
      · exfalso
        subst ht
        simp [putRoute, heff, OptVal.truthy, hne] at hroute
    · intro h
      subst h
      simp [putRoute, heff, OptVal.truthy]
  · intro reg next b hfind hfilter
    simp only [_get_commit_batch]
    rw [hfilter]
    simp [hfind]

/-- Witness for C9 at a concrete input: empty options, context
transaction `[7]`, a registry already holding batch 3 for it. -/
theorem c9_put_routing_witness :
    _get_transaction [] (.txnV [7]) = .txnV [7]
    ∧ putRoute [] (.txnV [7]) = .txnBatch (.txnV [7])
    ∧ _get_commit_batch (.txnV [7]) [] [(.txnV [7], 3)] 4 =
        ([(.txnV [7], 3)], 4, .ok 3) := by
  have h := c9_put_routing [] (.txnV [7]) (by decide)
    (Or.inr ⟨[7], rfl, by decide⟩)
  exact ⟨h.1, h.2.1 [7] rfl (by decide),
    h.2.2.2 [(.txnV [7], 3)] 4 3 (by decide) (by decide)⟩

/-- Claim C10: for every acquisition of a transactional commit batch,
passing any option key other than `transaction` — including keys accepted
elsewhere such as `read_consistency` — raises `NotImplementedError`
before the batch is looked up or created, leaving the per-transaction
registry (and its batch counter) unchanged. -/
theorem c10_commit_batch_rejects_options (transaction : OptVal) (opts : Options)
    (reg : CommitBatches) (next : Nat)
    (h : ∃ p ∈ opts, p.1 ≠ kTransaction) :
    _get_commit_batch transaction opts reg next =
      (reg, next, .error (.notImplementedError "Passed bad option")) := by
  obtain ⟨p, hp, hpk⟩ := h
  have hmem : p ∈ opts.filter (fun q => q.1 ≠ kTransaction) :=
    List.mem_filter.mpr ⟨hp, by simpa using hpk⟩
  have hcond : (opts.filter (fun q => q.1 ≠ kTransaction)).isEmpty = false := by
    cases hEmp : (opts.filter (fun q => q.1 ≠ kTransaction)).isEmpty
    · rfl
    · exfalso
      rw [List.isEmpty_iff] at hEmp
      rw [hEmp] at hmem
      exact List.not_mem_nil p hmem
  simp only [_get_commit_batch]
  rw [hcond]
  simp

/-- Witness for C10 at a concrete input: a `read_consistency` option on a
transactional batch acquisition raises and leaves the registry alone. -/
theorem c10_commit_batch_rejects_options_witness :
    _get_commit_batch (.txnV [7]) [(kReadConsistency, .eventualV)] [(.txnV [9], 0)] 1 =
      ([(.txnV [9], 0)], 1, .error (.notImplementedError "Passed bad option")) :=
  c10_commit_batch_rejects_options (.txnV [7]) [(kReadConsistency, .eventualV)]
    [(.txnV [9], 0)] 1 ⟨(kReadConsistency, .eventualV), by decide, by decide⟩

/-! ## Claim C7 -/

/-- Claim C7: a transactional put with a complete key resolves its future
immediately with `None` and touches no allocation state; with an
incomplete key the mutation and future are appended to the batch and to
the pending-allocation lists, an allocation idle callback being scheduled
exactly when this is the first pending entry; on allocation success each
allocated key is copied in place into its mutation and its future
resolves with that key; on allocation failure exactly the snapshot's
futures receive the exception. -/
theorem c7_txn_put_and_allocation (w : TxnWorld) (entity_pb : Entity) :
    (_complete entity_pb.key = true →
      ((txnPut w entity_pb).1.futures.getD (txnPut w entity_pb).2 none
          = some (.result .vNone)
        ∧ (txnPut w entity_pb).1.batch.incompleteMutations = w.batch.incompleteMutations
        ∧ (txnPut w entity_pb).1.batch.incompleteFutures = w.batch.incompleteFutures
        ∧ (txnPut w entity_pb).1.idleScheduled = w.idleScheduled
        ∧ (txnPut w entity_pb).1.rpcs = w.rpcs))
    ∧ (_complete entity_pb.key = false →
      ((txnPut w entity_pb).1.batch.mutations = w.batch.mutations ++ [w.mutStore.length]
        ∧ (txnPut w entity_pb).1.batch.futures = w.batch.futures ++ [w.futures.length]
        ∧ (txnPut w entity_pb).1.batch.incompleteMutations
            = w.batch.incompleteMutations ++ [w.mutStore.length]
        ∧ (txnPut w entity_pb).1.batch.incompleteFutures
            = w.batch.incompleteFutures ++ [w.futures.length]
        ∧ (txnPut w entity_pb).1.futures.getD (txnPut w entity_pb).2 none = none
        ∧ (txnPut w entity_pb).1.idleScheduled =
            w.idleScheduled + (if w.batch.incompleteMutations.isEmpty then 1 else 0)))
    ∧ (∀ i rd keys j, w.pendingRounds.get? i = some rd →
        rd.muts.length ≤ keys.length → rd.muts.length ≤ rd.futs.length →
        j < rd.muts.length → rd.muts.Nodup → rd.futs.Nodup →
        rd.marker ∉ rd.futs → rd.marker < (rd.futs.foldl max 0) + 1 + w.futures.length →
        rd.muts.getD j 0 < w.mutStore.length → rd.futs.getD j 0 < w.futures.length →
        ((fireAllocRound w i (.ok keys)).mutStore.getD (rd.muts.getD j 0)
            (Mutation.delete ⟨[]⟩)
          = (w.mutStore.getD (rd.muts.getD j 0)
              (Mutation.delete ⟨[]⟩)).withAllocatedKey (keys.getD j ⟨[]⟩)
        ∧ (fireAllocRound w i (.ok keys)).futures.getD (rd.futs.getD j 0) none
          = some (.result (.vKey (keys.getD j ⟨[]⟩)))))
    ∧ (∀ i rd e, w.pendingRounds.get? i = some rd → rd.marker ∉ rd.futs →
        ((∀ f ∈ rd.futs, f < w.futures.length →
            (fireAllocRound w i (.error e)).futures.getD f none = some (.exception e))
        ∧ (∀ f, f ∉ rd.futs → f ≠ rd.marker →
            (fireAllocRound w i (.error e)).futures.getD f none
              = w.futures.getD f none))) := by
  refine ⟨?_, ?_, ?_, ?_⟩
  · intro hc
    have hnc : ¬ ¬ _complete entity_pb.key = true := by simp [hc]
    simp only [txnPut, if_neg hnc]
    refine ⟨?_, by trivial, by trivial, by trivial, by trivial⟩
    have hlen : w.futures.length < (w.futures ++ [none]).length := by simp
    exact getD_set_self (w.futures ++ [none]) w.futures.length _ none hlen
  · intro hc
    have hnc : ¬ _complete entity_pb.key = true := by simp [hc]
    simp only [txnPut, if_pos hnc]
    refine ⟨by trivial, by trivial, by trivial, by trivial, ?_, by trivial⟩
    rw [List.getD_eq_getElem?_getD, List.getElem?_append_right (Nat.le_refl _)]
    simp
  · intro i rd keys j hrd hl1 hl2 hj hmn hfn hmk _ hmlt hflt
    simp only [fireAllocRound, hrd]
    have happ := applyAllocSuccess_at rd.muts keys rd.futs w.mutStore w.futures j
      hl1 hl2 hj hmn hfn hmlt hflt
    constructor
    · exact happ.1
    · have hne : rd.futs.getD j 0 ≠ rd.marker := by
        intro h
        exact hmk (h ▸ getD_mem rd.futs j 0 (Nat.lt_of_lt_of_le hj hl2))
      rw [getD_setFut_ne _ _ _ _ hne]
      exact happ.2
  · intro i rd e hrd hmk
    simp only [fireAllocRound, hrd]
    constructor
    · intro f hf hlt
      have hne : f ≠ rd.marker := fun h => hmk (h ▸ hf)
      rw [getD_setFut_ne _ _ _ _ hne]
      exact foldl_setFut_mem rd.futs w.futures _ f hf hlt
    · intro f hf hne
      rw [getD_setFut_ne _ _ _ _ hne]
      exact foldl_setFut_stable rd.futs w.futures _ f hf

/-- Witness for C7 at a concrete input: one complete-key put, one
incomplete-key put that schedules the idle callback, and an allocation
round fired with success and with failure. -/
theorem c7_txn_put_and_allocation_witness :
    let eC : Entity := ⟨⟨[⟨9, []⟩]⟩, 1⟩
    let eI : Entity := ⟨⟨[⟨0, []⟩]⟩, 2⟩
    let w0 : TxnWorld := ⟨[], [], ⟨.txnV [7], [], [], [], [], []⟩, [], [], 0, .notStarted⟩
    let wC := (txnPut w0 eC).1
    let wI := (txnPut wC eI).1
    let wA := runAllocIdle wI
    (wC.futures.getD 0 none = some (.result .vNone))
    ∧ wI.batch.incompleteMutations = [1]
    ∧ wI.idleScheduled = 1
    ∧ (fireAllocRound wA 0 (.ok [⟨[⟨3, []⟩]⟩])).mutStore.getD 1 (Mutation.delete ⟨[]⟩)
        = .upsert ⟨⟨[⟨3, []⟩]⟩, 2⟩
    ∧ (fireAllocRound wA 0 (.error 5)).futures.getD 1 none = some (.exception 5) := by
  intro eC eI w0 wC wI wA
  refine ⟨?_, ?_, ?_, ?_, ?_⟩
  · exact ((c7_txn_put_and_allocation w0 eC).1 (by decide)).1
  · exact ((c7_txn_put_and_allocation wC eI).2.1 (by decide)).2.2.1
  · have h := ((c7_txn_put_and_allocation wC eI).2.1 (by decide)).2.2.2.2.2
    rw [h]
    decide
  · have h := ((c7_txn_put_and_allocation wA eI).2.2.1 0 ⟨[1], [1], 2, [⟨[⟨0, []⟩]⟩]⟩
      [⟨[⟨3, []⟩]⟩] 0 (by decide) (by decide) (by decide) (by decide) (by decide)
      (by decide) (by decide) (by decide) (by decide) (by decide)).1
    have h2 : (fireAllocRound wA 0 (.ok [⟨[⟨3, []⟩]⟩])).mutStore.getD 1 (Mutation.delete ⟨[]⟩)
        = (wA.mutStore.getD 1 (Mutation.delete ⟨[]⟩)).withAllocatedKey ⟨[⟨3, []⟩]⟩ := h
    rw [h2]
    decide
  · exact ((c7_txn_put_and_allocation wA eI).2.2.2 0 ⟨[1], [1], 2, [⟨[⟨0, []⟩]⟩]⟩
      5 (by decide) (by decide)).1 1 (by decide) (by decide)

/-! ## Claim C1 -/

/-- Claim C1 counterexample: with an allocation RPC in flight, a second
incomplete-key put, and `commit` then invoked (suspending on the
in-flight marker), the already-scheduled allocation idle callback still
issues an AllocateIds RPC after commit's await has begun — the
pending-incomplete lists are only cleared after the await loop completes,
not when it starts. -/
theorem c1_alloc_call_after_commit_await_counterexample :
    let e1 : Entity := ⟨⟨[⟨0, []⟩]⟩, 1⟩
    let e2 : Entity := ⟨⟨[⟨0, []⟩]⟩, 2⟩
    let w0 : TxnWorld := ⟨[], [], ⟨.txnV [7], [], [], [], [], []⟩, [], [], 0, .notStarted⟩
    let w4 := commitStart (txnPut (runAllocIdle (txnPut w0 e1).1) e2).1
    let w5 := runAllocIdle w4
    w4.phase = .awaiting 0
    ∧ w5.rpcs = w4.rpcs ++ [.allocateIds [⟨[⟨0, []⟩]⟩]]
    ∧ w4.rpcs = [.allocateIds [⟨[⟨0, []⟩]⟩]] := by
  decide

/-- Claim C1 amended: when `commit`'s await loop reaches the end of
`allocating_ids` — every marker before the scan point already observed
done — every marker in the list is done, and only then is exactly one
Commit RPC issued, carrying the batch's transaction and all accumulated
mutations in original order; from that point the pending-incomplete lists
are cleared, so a subsequently firing allocation idle callback returns
without issuing an RPC. While a marker at or after the scan point is not
done, the loop suspends on the first such marker and no write is issued.
(An idle callback firing during the await may still issue an allocation
call; its marker is then also awaited, as the counterexample shows.) -/
theorem c1_commit_awaits_then_single_write (w : TxnWorld) (i : Nat)
    (hpre : ∀ f ∈ w.batch.allocatingIds.take i, w.isDone f = true) :
    (∀ r, firstUndoneIdx w (w.batch.allocatingIds.drop i) = some r →
      (commitScan w i).rpcs = w.rpcs ∧ (commitScan w i).phase = .awaiting (i + r))
    ∧ (firstUndoneIdx w (w.batch.allocatingIds.drop i) = none →
      ((∀ f ∈ w.batch.allocatingIds, w.isDone f = true)
        ∧ (commitScan w i).rpcs =
            w.rpcs ++ [.commit w.batch.transaction (commitMutations w)]
        ∧ (commitScan w i).phase = .sent
        ∧ runAllocIdle (commitScan w i) = commitScan w i))
    ∧ (w.phase = .notStarted → ¬ w.batch.mutations.isEmpty = true →
        commitStart w = commitScan w 0) := by
  refine ⟨?_, ?_, ?_⟩
  · intro r hr
    simp only [commitScan, hr]
    exact ⟨by trivial, by trivial⟩
  · intro hnone
    have hdrop := firstUndoneIdx_none w _ hnone
    refine ⟨?_, ?_, ?_, ?_⟩
    · intro f hf
      rw [← List.take_append_drop i w.batch.allocatingIds] at hf
      rcases List.mem_append.mp hf with h | h
      · exact hpre f h
      · exact hdrop f h
    · simp only [commitScan, hnone]
    · simp only [commitScan, hnone]
    · simp only [commitScan, hnone, runAllocIdle]
      rfl
  · intro hph hmut
    simp only [commitStart, hph, if_neg hmut]

/-- Witness for the amended C1: a batch with one complete-key mutation
and no allocation rounds; commit scans past the empty marker list and
issues the single Commit RPC, after which the idle callback is a no-op. -/
theorem c1_commit_awaits_then_single_write_witness :
    let w0 : TxnWorld := ⟨[], [], ⟨.txnV [7], [], [], [], [], []⟩, [], [], 0, .notStarted⟩
    let w1 := (txnPut w0 ⟨⟨[⟨9, []⟩]⟩, 1⟩).1
    (commitScan w1 0).rpcs = [.commit (.txnV [7]) [.upsert ⟨⟨[⟨9, []⟩]⟩, 1⟩]]
    ∧ (commitScan w1 0).phase = .sent
    ∧ runAllocIdle (commitScan w1 0) = commitScan w1 0
    ∧ commitStart w1 = commitScan w1 0 := by
  intro w0 w1
  have h := c1_commit_awaits_then_single_write w1 0 (by simp)
  have h2 := h.2.1 (by decide)
  refine ⟨?_, h2.2.2.1, h2.2.2.2, h.2.2 (by decide) (by decide)⟩
  have := h2.2.1
  rw [this]
  decide

/-! ## Claim C8 -/

theorem regFind_none_iff (l : List (RegKey × Nat)) (k : RegKey) :
    regFind l k = none ↔ ∀ p ∈ l, p.1 ≠ k := by
  simp [regFind, List.find?_eq_none]

theorem regFind_mem (l : List (RegKey × Nat)) (k : RegKey) (b : Nat)
    (h : regFind l k = some b) : (k, b) ∈ l := by
  unfold regFind at h
  cases hf : l.find? (fun q => q.1 = k) with
  | none =>
    rw [hf] at h
    simp at h
  | some p =>
    rw [hf] at h
    have hkey : p.1 = k := by simpa using List.find?_some hf
    have hmem := List.mem_of_find?_eq_some hf
    have hb : p.2 = b := by simpa using h
    have hp : p = (k, b) := Prod.ext hkey hb
    exact hp ▸ hmem

theorem regInv_init : RegInv ⟨[], [], [], 0⟩ := by
  refine ⟨List.nodup_nil, List.nodup_nil, ?_, ?_, ?_⟩ <;> simp

theorem regInv_acquire (s : RegState) (kind : BatchKind) (opts : Options)
    (h : RegInv s) : RegInv (acquireBatch s kind opts).1 := by
  obtain ⟨h1, h2, h3, h4, h5⟩ := h
  cases hf : regFind s.batches (kind, sortOptions opts) with
  | some b =>
    simp only [acquireBatch, hf]
    exact ⟨h1, h2, h3, h4, h5⟩
  | none =>
    simp only [acquireBatch, hf]
    have hk : ∀ p ∈ s.batches, p.1 ≠ (kind, sortOptions opts) :=
      (regFind_none_iff _ _).mp hf
    refine ⟨?_, ?_, ?_, ?_, ?_⟩
    · simp only [List.map_append, List.map_cons, List.map_nil]
      refine List.Nodup.append h1 (List.nodup_singleton _) ?_
      intro a ha hb
      rw [List.mem_singleton] at hb
      subst hb
      obtain ⟨p, hp, hpa⟩ := List.mem_map.mp ha
      exact hk p hp hpa
    · simp only [List.map_append, List.map_cons, List.map_nil]
      refine List.Nodup.append h2 (List.nodup_singleton _) ?_
      intro a ha hb
      rw [List.mem_singleton] at hb
      subst hb
      obtain ⟨p, hp, hpa⟩ := List.mem_map.mp ha
      exact Nat.lt_irrefl s.nextId (hpa ▸ h3 p hp)
    · intro p hp
      rcases List.mem_append.mp hp with hp | hp
      · exact Nat.lt_succ_of_lt (h3 p hp)
      · rw [List.mem_singleton] at hp
        subst hp
        exact Nat.lt_succ_self _
    · intro b hb
      exact Nat.lt_succ_of_lt (h4 b hb)
    · intro p hp
      rcases List.mem_append.mp hp with hp | hp
      · exact h5 p hp
      · rw [List.mem_singleton] at hp
        subst hp
        intro hmem
        exact absurd (h4 _ hmem) (Nat.lt_irrefl _)

theorem regInv_runIdle (s : RegState) (k : RegKey) (h : RegInv s) :
    RegInv (regRunIdle s k) := by
  obtain ⟨h1, h2, h3, h4, h5⟩ := h
  cases hf : regFind s.batches k with
  | none =>
    simp only [regRunIdle, hf]
    exact ⟨h1, h2, h3, h4, h5⟩
  | some b =>
    simp only [regRunIdle, hf]
    have hmem := regFind_mem s.batches k b hf
    refine ⟨?_, ?_, ?_, ?_, ?_⟩
    · exact List.Nodup.sublist (List.Sublist.map _ (List.filter_sublist _)) h1
    · exact List.Nodup.sublist (List.Sublist.map _ (List.filter_sublist _)) h2
    · intro p hp
      exact h3 p (List.mem_of_mem_filter hp)
    · intro c hc
      rcases List.mem_append.mp hc with hc | hc
      · exact h4 c hc
      · rw [List.mem_singleton] at hc
        subst hc
        exact h3 _ hmem
    · intro p hp
      have hpb := List.mem_of_mem_filter hp
      have hpk : p.1 ≠ k := by simpa using List.of_mem_filter hp
      intro hc
      rcases List.mem_append.mp hc with hc | hc
      · exact h5 p hpb hc
      · rw [List.mem_singleton] at hc
        have hne : p ≠ (k, b) := by
          intro hx
          exact hpk (by rw [hx])
        exact hne (List.inj_on_of_nodup_map h2 hpb hmem hc)

theorem regReach_inv (s : RegState) (h : RegReach s) : RegInv s := by
  induction h with
  | init => exact regInv_init
  | acquire s kind opts _ ih => exact regInv_acquire s kind opts ih
  | runIdle s k _ ih => exact regInv_runIdle s k ih

/-- Claim C8: in every reachable registry state, each
(batch-kind, canonical option-key) pair has at most one open batch;
acquiring with the key present returns the existing batch and changes
nothing; acquiring with the key absent creates a new batch and schedules
exactly one flush callback for it; the idle callback removes the batch
from the open-batch map (making it unreachable) as it starts the flush;
and an acquisition never returns a batch whose flush has begun. -/
theorem c8_registry_single_open_batch (s : RegState) (hs : RegReach s) :
    (s.batches.map (·.1)).Nodup
    ∧ (∀ kind opts b, regFind s.batches (kind, sortOptions opts) = some b →
        acquireBatch s kind opts = (s, b))
    ∧ (∀ kind opts, regFind s.batches (kind, sortOptions opts) = none →
        acquireBatch s kind opts =
          ({ s with
              batches := s.batches ++ [((kind, sortOptions opts), s.nextId)],
              scheduled := s.scheduled ++ [(kind, sortOptions opts)],
              nextId := s.nextId + 1 }, s.nextId))
    ∧ (∀ k b, regFind s.batches k = some b →
        regFind (regRunIdle s k).batches k = none ∧ b ∈ (regRunIdle s k).flushing)
    ∧ (∀ kind opts, (acquireBatch s kind opts).2 ∉ s.flushing) := by
  obtain ⟨h1, h2, h3, h4, h5⟩ := regReach_inv s hs
  refine ⟨h1, ?_, ?_, ?_, ?_⟩
  · intro kind opts b hf
    simp [acquireBatch, hf]
  · intro kind opts hf
    simp [acquireBatch, hf]
  · intro k b hf
    constructor
    · simp only [regRunIdle, hf]
      rw [regFind_none_iff]
      intro p hp
      simpa using List.of_mem_filter hp
    · simp only [regRunIdle, hf]
      simp
  · intro kind opts
    cases hf : regFind s.batches (kind, sortOptions opts) with
    | some b =>
      have hmem := regFind_mem _ _ _ hf
      have hval : (acquireBatch s kind opts).2 = b := by simp [acquireBatch, hf]
      rw [hval]
      exact h5 _ hmem
    | none =>
      have hval : (acquireBatch s kind opts).2 = s.nextId := by simp [acquireBatch, hf]
      rw [hval]
      intro hmem
      exact absurd (h4 _ hmem) (Nat.lt_irrefl _)

/-- Witness for C8 at a concrete reachable state: one acquisition from an
empty session; re-acquiring returns the same batch, and the idle flush
removes it from the registry. -/
theorem c8_registry_single_open_batch_witness :
    let s1 := (acquireBatch ⟨[], [], [], 0⟩ .lookupK []).1
    (s1.batches.map (·.1)).Nodup
    ∧ acquireBatch s1 .lookupK [] = (s1, 0)
    ∧ regFind (regRunIdle s1 (.lookupK, [])).batches (.lookupK, []) = none
    ∧ 0 ∈ (regRunIdle s1 (.lookupK, [])).flushing := by
  intro s1
  have hreach : RegReach s1 := RegReach.acquire _ .lookupK [] RegReach.init
  have h := c8_registry_single_open_batch s1 hreach
  refine ⟨h.1, h.2.1 .lookupK [] 0 (by decide), ?_, ?_⟩
  · exact (h.2.2.2.1 (.lookupK, []) 0 (by decide)).1
  · exact (h.2.2.2.1 (.lookupK, []) 0 (by decide)).2

end NdbDatastoreApi
